import Mathlib

/-!
A shallow embedding of the bitcask-engine repository (Go) and proofs about it.

The source of truth is `src/engine/engine.go` and `src/engine/file_entry.go`.
Files are modelled at byte granularity (`List Nat`, one `Nat` per byte); the
data directory is a single association list from the numeric part of each
segment file name (`<unix_seconds>.data`) to its byte content, kept in
creation order.  The wall clock is passed explicitly (`now : Int`) to every
operation that reads `time.Now().Unix()` in the source.  Filesystem writes
are modelled as complete (no partial writes), and the mutex is not modelled:
each operation is a pure state transformer, matching the source's behaviour
under its single coarse lock.
-/

namespace Bitcask

/-- `binary.BigEndian.PutUint64`: eight big-endian bytes of `n` as a `uint64`
(that is, of `n % 2^64`). -/
def toBE8 (n : Nat) : List Nat :=
  let m := n % 2 ^ 64
  [m / 2 ^ 56 % 256, m / 2 ^ 48 % 256, m / 2 ^ 40 % 256, m / 2 ^ 32 % 256,
   m / 2 ^ 24 % 256, m / 2 ^ 16 % 256, m / 2 ^ 8 % 256, m % 256]

/-- `binary.BigEndian.Uint64` over an 8-byte buffer. -/
def fromBE8 (bs : List Nat) : Nat :=
  bs.foldl (fun acc b => acc * 256 + b) 0

/-!
Modelled from the spec: the source serializes records with `encoding/gob`
(`file_entry.go`, `engine.go`), an external, intentionally opaque codec.
Per spec §4.1 the encoder "may be any self-describing scheme (length-tagged,
type-tagged) chosen at implementation time" that fully round-trips through
decode.  We model it as a concrete self-describing byte encoding: base-128
varints for unsigned fields, a zigzag varint for the timestamp,
length-prefixed code-point sequences for strings, one byte for the
tombstone flag.
-/

/-- Base-128 varint encoding of a `Nat` (low groups first, high bit marks
continuation); the fuel argument (`n` itself suffices, since `n / 128 < n`)
only bounds the iteration count. -/
def encNatAux : Nat → Nat → List Nat
  | 0, n => [n]
  | fuel + 1, n => if n < 128 then [n] else (n % 128 + 128) :: encNatAux fuel (n / 128)

def encNat (n : Nat) : List Nat := encNatAux n n

/-- Varint decoding; returns the value and the unread remainder. -/
def decNat : List Nat → Option (Nat × List Nat)
  | [] => none
  | b :: rest =>
    if b < 128 then some (b, rest)
    else
      match decNat rest with
      | none => none
      | some (m, r) => some ((b - 128) + 128 * m, r)

/-- Zigzag varint for a signed 64-bit value. -/
def encInt (i : Int) : List Nat :=
  encNat (if i < 0 then (2 * (-i) - 1).toNat else (2 * i).toNat)

def decInt (bs : List Nat) : Option (Int × List Nat) :=
  match decNat bs with
  | none => none
  | some (n, r) =>
    some ((if n % 2 = 0 then ((n / 2 : Nat) : Int) else -(((n + 1) / 2 : Nat) : Int)), r)

/-- Code points of a character list, each as a varint. -/
def encChars (cs : List Char) : List Nat :=
  cs.foldr (fun c acc => encNat c.toNat ++ acc) []

/-- A string as its length followed by its characters' code points. -/
def encString (s : String) : List Nat :=
  encNat s.data.length ++ encChars s.data

def decChars : Nat → List Nat → Option (List Char × List Nat)
  | 0, bs => some ([], bs)
  | n + 1, bs =>
    match decNat bs with
    | none => none
    | some (c, r) =>
      match decChars n r with
      | none => none
      | some (cs, r2) => some (Char.ofNat c :: cs, r2)

def decString (bs : List Nat) : Option (String × List Nat) :=
  match decNat bs with
  | none => none
  | some (n, r) =>
    match decChars n r with
    | none => none
    | some (cs, r2) => some (String.mk cs, r2)

/-- UTF-8 bytes of one character; models Go's `[]byte(s)` view of a string. -/
def utf8Bytes (c : Char) : List Nat :=
  let n := c.toNat
  if n < 0x80 then [n]
  else if n < 0x800 then [0xC0 + n / 64, 0x80 + n % 64]
  else if n < 0x10000 then [0xE0 + n / 4096, 0x80 + n / 64 % 64, 0x80 + n % 64]
  else [0xF0 + n / 262144, 0x80 + n / 4096 % 64, 0x80 + n / 64 % 64, 0x80 + n % 64]

/-- The byte sequence of a Go string (UTF-8). -/
def strBytes (s : String) : List Nat :=
  (s.data.map utf8Bytes).flatten

/-- The IEEE CRC-32 polynomial in reversed bit order, as used by
`hash/crc32` (`crc32.NewIEEE`, `file_entry.go` line 37). -/
def crc32Poly : Nat := 0xEDB88320

def crc32Bit (crc : Nat) : Nat :=
  if crc % 2 = 1 then (crc / 2) ^^^ crc32Poly else crc / 2

def crc32Byte (crc b : Nat) : Nat := crc32Bit^[8] (crc ^^^ b)

/-- IEEE CRC-32 of a byte sequence (`hash/crc32`, bitwise form of the
table-driven implementation). -/
def crc32 (bytes : List Nat) : Nat :=
  (bytes.foldl crc32Byte 0xFFFFFFFF) ^^^ 0xFFFFFFFF

/-- The logical record, `FileEntry` in `file_entry.go` lines 12-20.
Machine integers become `Nat`/`Int`; `Crc`, `Ksz`, `ValueSz` are `uint32`
values (reduced mod `2^32` where the source converts), `Tstamp` is `int64`. -/
structure FileEntry where
  Crc : Nat
  Tstamp : Int
  Ksz : Nat
  ValueSz : Nat
  Key : String
  Value : String
  IsTombstone : Bool
deriving DecidableEq, Repr

/-- `NewFileEntry` (`file_entry.go` lines 33-51): stamps the current clock
second, hashes key-bytes then value-bytes, and records byte lengths as
`uint32`.  The source's error return is always `nil`, so the model is total.
The clock read `time.Now().Unix()` is the explicit `now` argument. -/
def NewFileEntry (key value : String) (isTombstone : Bool) (now : Int) : FileEntry :=
  { Crc := crc32 (strBytes key ++ strBytes value)
    Tstamp := now
    Ksz := (strBytes key).length % 2 ^ 32
    ValueSz := (strBytes value).length % 2 ^ 32
    Key := key
    Value := value
    IsTombstone := isTombstone }

/-- Modelled from the spec: the gob payload of one record (`Serialize` /
`enc.Encode(fileEntry)`), as a self-describing field-by-field encoding
(§4.1: any stable self-describing scheme). -/
def serializeFileEntry (fe : FileEntry) : List Nat :=
  encNat fe.Crc ++ encInt fe.Tstamp ++ encNat fe.Ksz ++ encNat fe.ValueSz ++
    encString fe.Key ++ encString fe.Value ++ [if fe.IsTombstone then 1 else 0]

/-- Modelled from the spec: `DeserializeFileEntry` (`file_entry.go` lines
53-61), the inverse of the codec; fails (`none`) on truncated, trailing or
unrecognized bytes, the model of gob's decode error. -/
def DeserializeFileEntry (buffer : List Nat) : Option FileEntry :=
  match decNat buffer with
  | none => none
  | some (crc, r1) =>
    match decInt r1 with
    | none => none
    | some (ts, r2) =>
      match decNat r2 with
      | none => none
      | some (ksz, r3) =>
        match decNat r3 with
        | none => none
        | some (vsz, r4) =>
          match decString r4 with
          | none => none
          | some (k, r5) =>
            match decString r5 with
            | none => none
            | some (v, r6) =>
              match r6 with
              | [1] => some ⟨crc, ts, ksz, vsz, k, v, true⟩
              | [0] => some ⟨crc, ts, ksz, vsz, k, v, false⟩
              | _ => none

/-- A directory entry (locator), `KeyDir` in `engine.go`.  The Go `FileID`
is the segment file's path `<dir>/<unix_seconds>.data`; in the
single-directory model it is the numeric `<unix_seconds>` part.  `ValueSz`
is `uint64`, `ValuePos` an `int64` file offset (always non-negative here),
`Tstamp` an `int64`. -/
structure KeyDir where
  FileID : Int
  ValueSz : Nat
  ValuePos : Nat
  Tstamp : Int
deriving DecidableEq, Repr

/-- The in-memory key directory, Go's `map[string]*KeyDir`, as an
association list without duplicate keys (insert overwrites in place). -/
abbrev KeydirMap := List (String × KeyDir)

def kdLookup (kd : KeydirMap) (k : String) : Option KeyDir :=
  (List.find? (fun e => e.1 == k) kd).map (·.2)

def kdInsert (kd : KeydirMap) (k : String) (v : KeyDir) : KeydirMap :=
  if List.any kd (fun e => e.1 == k) then
    List.map (fun e => if e.1 == k then (k, v) else e) kd
  else
    List.append kd [(k, v)]

def kdErase (kd : KeydirMap) (k : String) : KeydirMap :=
  List.filter (fun e => !(e.1 == k)) kd

/-- The data directory: each segment file's numeric name part mapped to its
byte content, in creation order.  All files the engine creates are named
`<unix_seconds>.data`, so the numeric part identifies the file. -/
abbrev Disk := List (Int × List Nat)

def diskGet (d : Disk) (p : Int) : Option (List Nat) :=
  (List.find? (fun f => f.1 == p) d).map (·.2)

/-- File size as seen by `Stat`; a file the engine has open always exists. -/
def diskSize (d : Disk) (p : Int) : Nat :=
  ((diskGet d p).getD []).length

/-- `os.OpenFile(path, O_APPEND|O_CREATE|O_WRONLY, 0644)`: creates the file
empty when absent, keeps existing content otherwise (no truncation). -/
def diskOpenCreate (d : Disk) (p : Int) : Disk :=
  if List.any d (fun f => f.1 == p) then d else List.append d [(p, [])]

/-- An `O_APPEND` write: bytes go to the end of the file. -/
def diskWrite (d : Disk) (p : Int) (bs : List Nat) : Disk :=
  List.map (fun f => if f.1 == p then (f.1, List.append f.2 bs) else f) d

/-- Error kinds, one per distinct `fmt.Errorf` return path the model can
reach; wrapper constructors mirror `%w` wrapping. -/
inductive Err where
  | keyNotFound
  | keyDeleted
  | fetchWrap (e : Err)
  | openFileFailed
  | invalidPayloadLength
  | readFailed
  | corruptRecord
  | statFailed
  | putWrap (e : Err)
  | deleteMissing
  | deleteWrap (e : Err)
  | buildWrap (e : Err)
deriving DecidableEq, Repr

/-- Engine state, `BitcaskEngine` in `engine.go` lines 27-33.  `ActiveFile`
is the open handle's file (name part), `none` after `Close`.  `ActivePos`
models the handle's seek position (`Seek(0, io.SeekCurrent)`): 0 when a
file is freshly opened, end-of-file after every `O_APPEND` write.  The
mutex and `ActiveDir` (a single fixed directory) are not modelled. -/
structure BitcaskEngine where
  Keydir : KeydirMap
  ActiveFile : Option Int
  ActivePos : Nat
  MaxFileSize : Int
deriving DecidableEq, Repr

/-- `NewBistcaskEngine` (`engine.go` lines 35-70): creates/keeps the data
directory, opens (creating if needed, appending, not truncating) a fresh
active file named `<now>.data`, and starts with an empty key directory and
the 1 MiB default size cap. -/
def NewBistcaskEngine (d : Disk) (now : Int) : BitcaskEngine × Disk :=
  ({ Keydir := [], ActiveFile := some now, ActivePos := 0,
     MaxFileSize := 1 * 1024 * 1024 }, diskOpenCreate d now)

/-- `Close` (`engine.go` lines 72-85): closing the handle is modelled as
always succeeding; a second close finds `ActiveFile = nil` and returns
`nil` at once. -/
def Close (be : BitcaskEngine) : Except Err Unit × BitcaskEngine :=
  match be.ActiveFile with
  | none => (.ok (), be)
  | some _ => (.ok (), { be with ActiveFile := none })

/-- `fetchFromDisk` (`engine.go` lines 110-139): open the segment named by
the locator, read `ValueSz - 8` payload bytes at `ValuePos + 8` (`ReadAt`
fails unless it can fill the whole buffer), and decode them. -/
def fetchFromDisk (d : Disk) (record : KeyDir) : Except Err FileEntry :=
  match diskGet d record.FileID with
  | none => .error .openFileFailed
  | some content =>
    let payloadStartOffset := record.ValuePos + 8
    let payloadLength : Int := (record.ValueSz : Int) - 8
    if payloadLength < 0 then .error .invalidPayloadLength
    else if payloadStartOffset + payloadLength.toNat > content.length then .error .readFailed
    else
      match DeserializeFileEntry ((content.drop payloadStartOffset).take payloadLength.toNat) with
      | none => .error .corruptRecord
      | some fileEntry => .ok fileEntry

/-- `Get` (`engine.go` lines 87-108).  Note the source consults only the
key directory and segment files on disk; it never touches the active
handle and performs no writes. -/
def Get (be : BitcaskEngine) (d : Disk) (key : String) :
    Except Err String × BitcaskEngine × Disk :=
  match kdLookup be.Keydir key with
  | none => (.error .keyNotFound, be, d)
  | some record =>
    match fetchFromDisk d record with
    | .error e => (.error (.fetchWrap e), be, d)
    | .ok entry =>
      if entry.IsTombstone then (.error .keyDeleted, be, d)
      else (.ok entry.Value, be, d)

/-- `rollOverActiveFile` (`engine.go` lines 251-276): close the active file
(always succeeds in the model), then open `<now>.data` in the same
directory with `O_APPEND|O_CREATE|O_WRONLY` — reusing the existing file
without truncation when one of that name exists — with the fresh handle at
position 0. -/
def rollOverActiveFile (be : BitcaskEngine) (d : Disk) (now : Int) :
    BitcaskEngine × Disk :=
  ({ be with ActiveFile := some now, ActivePos := 0 }, diskOpenCreate d now)

/-- `putFileEntry` (`engine.go` lines 186-249): gob-encode the entry, frame
it with an 8-byte big-endian length, roll over first when
`Stat().Size() + totalLen > MaxFileSize`, record the handle position
(`Seek(0, io.SeekCurrent)`) as the locator offset, append the frame, and
return the locator.  `Stat` on a closed (`nil`) handle yields the error
path; writes themselves are modelled as complete. -/
def putFileEntry (be : BitcaskEngine) (d : Disk) (fileEntry : FileEntry) (now : Int) :
    Except Err (KeyDir × BitcaskEngine × Disk) :=
  let serializedFileEntryBytes := serializeFileEntry fileEntry
  let payloadLen := serializedFileEntryBytes.length
  let lenBuf := toBE8 payloadLen
  let totalLen : Int := ((8 + payloadLen : Nat) : Int)
  match be.ActiveFile with
  | none => .error .statFailed
  | some p =>
    let fileSize : Int := ((diskSize d p : Nat) : Int)
    let roll := if fileSize + totalLen > be.MaxFileSize then rollOverActiveFile be d now else (be, d)
    let be1 := roll.1
    let d1 := roll.2
    match be1.ActiveFile with
    | none => .error .statFailed
    | some q =>
      let offset := be1.ActivePos
      let d2 := diskWrite d1 q (lenBuf ++ serializedFileEntryBytes)
      let be2 := { be1 with ActivePos := diskSize d1 q + 8 + payloadLen }
      .ok ({ FileID := q, ValueSz := 8 + payloadLen, ValuePos := offset,
             Tstamp := fileEntry.Tstamp }, be2, d2)

/-- `Put` (`engine.go` lines 141-158): build the entry at the current clock
second, append it, then point the key directory at the new record. -/
def Put (be : BitcaskEngine) (d : Disk) (key value : String) (now : Int) :
    Except Err Unit × BitcaskEngine × Disk :=
  let fileEntry := NewFileEntry key value false now
  match putFileEntry be d fileEntry now with
  | .error e => (.error (.putWrap e), be, d)
  | .ok (keydirEntry, be1, d1) =>
    (.ok (), { be1 with Keydir := kdInsert be1.Keydir key keydirEntry }, d1)

/-- `Delete` (`engine.go` lines 160-184): a key absent from the directory is
an error before anything is written; otherwise append a tombstone (whose
locator is discarded) and remove the key from the directory. -/
def Delete (be : BitcaskEngine) (d : Disk) (key : String) (now : Int) :
    Except Err Unit × BitcaskEngine × Disk :=
  match kdLookup be.Keydir key with
  | none => (.error .deleteMissing, be, d)
  | some _ =>
    let tombstoneEntry := NewFileEntry key "" true now
    match putFileEntry be d tombstoneEntry now with
    | .error e => (.error (.deleteWrap e), be, d)
    | .ok (_, be1, d1) =>
      (.ok (), { be1 with Keydir := kdErase be1.Keydir key }, d1)

/-- The scan loop of `processOldFile` (`engine.go` lines 325-390): read an
8-byte big-endian length prefix (clean EOF before it ends the loop; a
short prefix or payload is an error), decode the payload, apply the
last-writer-wins update (`engine.go` lines 366-387), advance by
`8 + payloadLen`.  Returns the directory as updated so far together with
the first error, mirroring the in-place mutation of `be.Keydir`. -/
def scanFromAux : Nat → KeydirMap → Int → List Nat → Nat → KeydirMap × Option Err
  | 0, kd, _, bytes, _ => if bytes = [] then (kd, none) else (kd, some .readFailed)
  | Nat.succ fuel, kd, filePath, bytes, currentOffset =>
    if bytes = [] then (kd, none)
    else if bytes.length < 8 then (kd, some .readFailed)
    else
      let lenBuf := bytes.take 8
      let payloadLen := fromBE8 lenBuf
      let rest := bytes.drop 8
      if rest.length < payloadLen then (kd, some .readFailed)
      else
        let payloadBuf := rest.take payloadLen
        match DeserializeFileEntry payloadBuf with
        | none => (kd, some .corruptRecord)
        | some fe =>
          let recordTotalSize := 8 + payloadLen
          let kd' :=
            if fe.IsTombstone then
              match kdLookup kd fe.Key with
              | none => kdErase kd fe.Key
              | some existing =>
                if fe.Tstamp ≥ existing.Tstamp then kdErase kd fe.Key else kd
            else
              match kdLookup kd fe.Key with
              | none =>
                kdInsert kd fe.Key
                  ⟨filePath, recordTotalSize, currentOffset, fe.Tstamp⟩
              | some existing =>
                if fe.Tstamp ≥ existing.Tstamp then
                  kdInsert kd fe.Key
                    ⟨filePath, recordTotalSize, currentOffset, fe.Tstamp⟩
                else kd
          scanFromAux fuel kd' filePath (rest.drop payloadLen) (currentOffset + recordTotalSize)

/-- The scan with enough fuel for every iteration: each record consumes at
least 8 bytes, so `bytes.length` bounds the number of loop iterations. -/
def scanFrom (kd : KeydirMap) (filePath : Int) (bytes : List Nat) (currentOffset : Nat) :
    KeydirMap × Option Err :=
  scanFromAux bytes.length kd filePath bytes currentOffset

/-- `processOldFile` (`engine.go` lines 316-392): scan one segment file from
offset 0. -/
def processOldFile (kd : KeydirMap) (filePath : Int) (content : List Nat) :
    KeydirMap × Option Err :=
  scanFrom kd filePath content 0

/-- The sort of `BuildIndex` (`engine.go` lines 285-297): ascending by the
numeric part of the file name.  All files in the model are engine-created
`<unix_seconds>.data` names, so the integer parse always succeeds and the
lexicographic fallback is never taken. -/
def insertFileByTs (f : Int × List Nat) : Disk → Disk
  | [] => [f]
  | g :: rest => if f.1 ≤ g.1 then f :: g :: rest else g :: insertFileByTs f rest

def sortFilesByTs : Disk → Disk
  | [] => []
  | f :: rest => insertFileByTs f (sortFilesByTs rest)

/-- The per-file loop of `BuildIndex` (`engine.go` lines 299-310): process
files in sorted order, stopping at the first error. -/
def buildIndexLoop (kd : KeydirMap) : Disk → KeydirMap × Option Err
  | [] => (kd, none)
  | f :: rest =>
    match processOldFile kd f.1 f.2 with
    | (kd1, some e) => (kd1, some e)
    | (kd1, none) => buildIndexLoop kd1 rest

/-- `BuildIndex` (`engine.go` lines 278-314): enumerate and sort segment
files, then replay each into the *current* in-memory directory (the source
never clears `be.Keydir` first).  The disk is read, never written. -/
def BuildIndex (be : BitcaskEngine) (d : Disk) : Except Err Unit × BitcaskEngine :=
  match buildIndexLoop be.Keydir (sortFilesByTs d) with
  | (kd1, some e) => (.error (.buildWrap e), { be with Keydir := kd1 })
  | (kd1, none) => (.ok (), { be with Keydir := kd1 })

/-! Spec-side (record-level) view of replay, used to state the claims that
compare the byte-level code with the specification's words. -/

/-- Length `L` of a record's encoded payload. -/
def payloadLen (fe : FileEntry) : Nat := (serializeFileEntry fe).length

/-- One framed record: 8-byte big-endian length prefix followed by the
payload (spec §3, "Framed record"). -/
def frameBytes (fe : FileEntry) : List Nat :=
  toBE8 (payloadLen fe) ++ serializeFileEntry fe

/-- A segment file's content as a concatenation of framed records. -/
def framesBytes (rs : List FileEntry) : List Nat :=
  (rs.map frameBytes).flatten

/-- Modelled from the spec (§4.6 step 4), in the spec's own order of tests:
for a decoded record with key `K` and timestamp `T`, if `K` has no
directory entry or the existing entry's timestamp is ≤ `T`, a tombstone
removes `K` and a non-tombstone inserts/overwrites the locator
`(file_path, record_offset, 8 + L, T)`; otherwise the record is skipped. -/
def specStep (kd : KeydirMap) (filePath : Int) (recordOffset : Nat) (fe : FileEntry) :
    KeydirMap :=
  match kdLookup kd fe.Key with
  | none =>
    if fe.IsTombstone then kdErase kd fe.Key
    else kdInsert kd fe.Key ⟨filePath, 8 + payloadLen fe, recordOffset, fe.Tstamp⟩
  | some existing =>
    if existing.Tstamp ≤ fe.Tstamp then
      if fe.IsTombstone then kdErase kd fe.Key
      else kdInsert kd fe.Key ⟨filePath, 8 + payloadLen fe, recordOffset, fe.Tstamp⟩
    else kd

/-- Modelled from the spec (§4.6 step 3): replay one file's records in
physical order, tracking byte offsets. -/
def specReplayRecs (kd : KeydirMap) (filePath : Int) (off : Nat) :
    List FileEntry → KeydirMap
  | [] => kd
  | fe :: rest =>
    specReplayRecs (specStep kd filePath off fe) filePath (off + (8 + payloadLen fe)) rest

/-- Modelled from the spec (§4.6): replay a whole directory of (already
temporally ordered) files. -/
def specReplayDisk (kd : KeydirMap) : List (Int × List FileEntry) → KeydirMap
  | [] => kd
  | f :: rest => specReplayDisk (specReplayRecs kd f.1 0 f.2) rest

instance instDecEqExcept {ε α : Type} [DecidableEq ε] [DecidableEq α] :
    DecidableEq (Except ε α)
  | .error a, .error b => decidable_of_iff (a = b) (by simp)
  | .error _, .ok _ => isFalse (fun h => by cases h)
  | .ok _, .error _ => isFalse (fun h => by cases h)
  | .ok a, .ok b => decidable_of_iff (a = b) (by simp)

/-! Operation sequences for the persistence claim: each element is a `put`
or `delete` together with the wall-clock second at which it runs. -/

inductive SOp where
  | putOp (key value : String)
  | delOp (key : String)
deriving DecidableEq, Repr

/-- Run one timed operation, keeping the resulting state whether or not the
operation reported an error (a failed `Delete` leaves the state unchanged;
`Put` on an open engine always succeeds in the model). -/
def stepOp (s : BitcaskEngine × Disk) (op : SOp × Int) : BitcaskEngine × Disk :=
  match op.1 with
  | .putOp k v => (Put s.1 s.2 k v op.2).2
  | .delOp k => (Delete s.1 s.2 k op.2).2

def runOps (s : BitcaskEngine × Disk) (ops : List (SOp × Int)) : BitcaskEngine × Disk :=
  ops.foldl stepOp s

/-- The record a timed operation would append (a failed delete appends
nothing and is excluded by `safeOp`). -/
def opEntry (op : SOp × Int) : FileEntry :=
  match op.1 with
  | .putOp k v => NewFileEntry k v false op.2
  | .delOp k => NewFileEntry k "" true op.2

/-- The operation's payload is representable in the 8-byte length prefix. -/
def opBound (op : SOp × Int) : Bool :=
  decide (payloadLen (opEntry op) < 2 ^ 64)

/-- `true` when appending `fe` at second `now` either needs no rollover or
rolls over at a second strictly after the active file's name second (so the
new segment really is a distinct, later-named file). -/
def rollSafe (be : BitcaskEngine) (d : Disk) (fe : FileEntry) (now : Int) : Bool :=
  match be.ActiveFile with
  | none => false
  | some p =>
    if ((diskSize d p : Int) + ((8 + payloadLen fe : Nat) : Int) > be.MaxFileSize)
    then decide (p < now) else true

def safeOp (s : BitcaskEngine × Disk) (op : SOp × Int) : Bool :=
  match op.1 with
  | .putOp _ _ => rollSafe s.1 s.2 (opEntry op) op.2
  | .delOp k =>
    match kdLookup s.1.Keydir k with
    | none => true
    | some _ => rollSafe s.1 s.2 (opEntry op) op.2

/-- Every operation of the run is collision-free in the sense of
`rollSafe`. -/
def safeRun (s : BitcaskEngine × Disk) : List (SOp × Int) → Bool
  | [] => true
  | op :: rest => safeOp s op && safeRun (stepOp s op) rest

/-- The wall-clock second of the last operation (or `t` if none). -/
def lastTime (t : Int) (ops : List (SOp × Int)) : Int :=
  (ops.map Prod.snd).getLastD t

def filesOf (d : Disk) : List Int := List.map Prod.fst d

/-- The reachability invariant of a single-engine run on an initially fresh
data directory, at clock lower bound `tmax` (every operation so far ran at
a second `≤ tmax`): the active file is the last-created (largest-named)
segment and the handle position is its length; file names strictly
increase in creation order; replaying the disk from an empty directory
reproduces the in-memory directory exactly and without error; and every
directory entry carries a timestamp `≤ tmax` and points into the disk. -/
structure Inv (be : BitcaskEngine) (d : Disk) (tmax : Int) : Prop where
  active : ∃ init p c rs,
    be.ActiveFile = some p ∧ d = init ++ [(p, c)] ∧ be.ActivePos = c.length ∧
    c = framesBytes rs ∧ (∀ fe ∈ rs, payloadLen fe < 2 ^ 64) ∧ p ≤ tmax
  sorted : List.Pairwise (· < ·) (filesOf d)
  replay : buildIndexLoop [] d = (be.Keydir, none)
  tstamps : ∀ kv ∈ be.Keydir, kv.2.Tstamp ≤ tmax
  fileIds : ∀ kv ∈ be.Keydir, kv.2.FileID ∈ filesOf d

/-- The scenario of the persistence claim: a fresh engine on an empty data
directory at second `t0`, with the size cap configured to `m` before the
first write (spec §6: set by the embedder before any put). -/
def initialState (t0 m : Int) : BitcaskEngine × Disk :=
  ({ (NewBistcaskEngine [] t0).1 with MaxFileSize := m }, (NewBistcaskEngine [] t0).2)

/-- Engine and disk after running the operation sequence. -/
def finalState (t0 m : Int) (ops : List (SOp × Int)) : BitcaskEngine × Disk :=
  runOps (initialState t0 m) ops

/-- A second engine opened on the same directory at second `tr`. -/
def reopenedState (t0 m : Int) (ops : List (SOp × Int)) (tr : Int) :
    BitcaskEngine × Disk :=
  NewBistcaskEngine (finalState t0 m ops).2 tr

/-- The reopened engine after `BuildIndex`. -/
def rebuiltEngine (t0 m : Int) (ops : List (SOp × Int)) (tr : Int) : BitcaskEngine :=
  (BuildIndex (reopenedState t0 m ops tr).1 (reopenedState t0 m ops tr).2).2

/-- A data directory whose files hold the given record lists. -/
def diskOfAbs (files : List (Int × List FileEntry)) : Disk :=
  List.map (fun f => (f.1, framesBytes f.2)) files

/-- Concrete scenario: a fresh engine on an empty directory at second 100,
with one record written. -/
def exPut : BitcaskEngine × Disk :=
  (Put (NewBistcaskEngine [] 100).1 (NewBistcaskEngine [] 100).2 "a" "b" 100).2

/-- A second engine opened on the same directory at the same second: it
opens the existing non-empty `100.data` in append mode with its handle at
position 0. -/
def exReopen : BitcaskEngine × Disk := NewBistcaskEngine exPut.2 100

/-- A write through the same-second reopened engine: the locator records
offset 0 although the record is appended at the end of the file. -/
def exReopenPut : BitcaskEngine × Disk := (Put exReopen.1 exReopen.2 "c" "d" 100).2

/-- Concrete scenario with a 25-byte size cap: the second same-second `put`
triggers a rollover that reuses `100.data` and resets the handle position,
corrupting the new record's locator. -/
def cx2a : BitcaskEngine × Disk := initialState 100 25

def cx2b : BitcaskEngine × Disk := (Put cx2a.1 cx2a.2 "a" "b" 100).2

def cx2c : BitcaskEngine × Disk := (Put cx2b.1 cx2b.2 "c" "d" 100).2

def cx2Reopen : BitcaskEngine × Disk := NewBistcaskEngine cx2c.2 101

def cx2Rebuilt : BitcaskEngine := (BuildIndex cx2Reopen.1 cx2Reopen.2).2

set_option maxRecDepth 100000

theorem toBE8_length (n : Nat) : (toBE8 n).length = 8 := rfl

theorem fromBE8_toBE8 (n : Nat) (h : n < 2 ^ 64) : fromBE8 (toBE8 n) = n := by
  unfold toBE8 fromBE8
  simp only [Nat.mod_eq_of_lt h, List.foldl]
  omega

theorem decNat_encNatAux (fuel n : Nat) (s : List Nat) (hf : n ≤ fuel) :
    decNat (encNatAux fuel n ++ s) = some (n, s) := by
  induction fuel generalizing n with
  | zero =>
    have : n = 0 := by omega
    subst this
    simp [encNatAux, decNat]
  | succ f ih =>
    rw [encNatAux]
    by_cases h : n < 128
    · simp [h, decNat]
    · have hd : n / 128 < n := Nat.div_lt_self (by omega) (by omega)
      simp only [h, if_false, List.cons_append, decNat]
      rw [if_neg (by omega), ih _ (by omega)]
      simp only [Option.some.injEq, Prod.mk.injEq, and_true]
      omega

theorem decNat_encNat (n : Nat) (s : List Nat) :
    decNat (encNat n ++ s) = some (n, s) :=
  decNat_encNatAux n n s (le_refl n)

theorem decInt_encInt (i : Int) (s : List Nat) :
    decInt (encInt i ++ s) = some (i, s) := by
  unfold encInt decInt
  rw [decNat_encNat]
  simp only [Option.some.injEq, Prod.mk.injEq, and_true]
  by_cases h : i < 0
  · rw [if_pos h, if_neg (by omega)]
    omega
  · rw [if_neg h, if_pos (by omega)]
    omega

theorem decChars_encChars (cs : List Char) (s : List Nat) :
    decChars cs.length (encChars cs ++ s) = some (cs, s) := by
  induction cs with
  | nil => simp [encChars, decChars]
  | cons c rest ih =>
    simp only [List.length_cons, encChars, List.foldr, decChars, List.append_assoc,
      decNat_encNat]
    have : List.foldr (fun c acc => encNat c.toNat ++ acc) [] rest = encChars rest := rfl
    rw [this, ih, Char.ofNat_toNat]

theorem decString_encString (str : String) (s : List Nat) :
    decString (encString str ++ s) = some (str, s) := by
  unfold encString decString
  rw [List.append_assoc, decNat_encNat]
  dsimp only
  rw [decChars_encChars]

theorem deserialize_serialize (fe : FileEntry) :
    DeserializeFileEntry (serializeFileEntry fe) = some fe := by
  obtain ⟨crc, ts, ksz, vsz, k, v, tomb⟩ := fe
  unfold serializeFileEntry DeserializeFileEntry
  simp only [List.append_assoc]
  rw [decNat_encNat]
  dsimp only
  rw [decInt_encInt]
  dsimp only
  rw [decNat_encNat]
  dsimp only
  rw [decNat_encNat]
  dsimp only
  rw [decString_encString]
  dsimp only
  rw [decString_encString]
  dsimp only
  cases tomb <;> simp

theorem frameBytes_length (fe : FileEntry) :
    (frameBytes fe).length = 8 + payloadLen fe := by
  simp [frameBytes, toBE8_length, payloadLen]

/-- The byte-level scan loop, over well-formed frames and with enough fuel,
performs exactly the spec's record-level replay and reports no error. -/
theorem scanFromAux_frames (rs : List FileEntry) (fuel : Nat) (kd : KeydirMap) (p : Int)
    (off : Nat) (hb : ∀ fe ∈ rs, payloadLen fe < 2 ^ 64)
    (hfuel : (framesBytes rs).length ≤ fuel) :
    scanFromAux fuel kd p (framesBytes rs) off = (specReplayRecs kd p off rs, none) := by
  induction rs generalizing kd off fuel with
  | nil => cases fuel <;> simp [framesBytes, scanFromAux, specReplayRecs]
  | cons fe rest ih =>
    have hfe : payloadLen fe < 2 ^ 64 := hb fe (by simp)
    have hrest : ∀ r ∈ rest, payloadLen r < 2 ^ 64 := fun r hr => hb r (by simp [hr])
    have hflat : framesBytes (fe :: rest) =
        toBE8 (payloadLen fe) ++ (serializeFileEntry fe ++ framesBytes rest) := by
      simp [framesBytes, frameBytes, List.flatten_cons, List.append_assoc]
    have hlen8 : (toBE8 (payloadLen fe)).length = 8 := toBE8_length _
    have hser : (serializeFileEntry fe).length = payloadLen fe := rfl
    have hlenTot : (framesBytes (fe :: rest)).length =
        8 + (payloadLen fe + (framesBytes rest).length) := by
      rw [hflat]
      simp [hlen8, hser]
    cases fuel with
    | zero => omega
    | succ f =>
      rw [hflat] at hfuel hlenTot ⊢
      rw [scanFromAux]
      have hnil : ¬(toBE8 (payloadLen fe) ++ (serializeFileEntry fe ++ framesBytes rest) = []) := by
        intro h
        have := congrArg List.length h
        simp [hlen8] at this
      rw [if_neg hnil]
      rw [if_neg (by omega)]
      rw [List.take_left' hlen8, List.drop_left' hlen8]
      dsimp only
      rw [fromBE8_toBE8 _ hfe]
      have hlenRest : (serializeFileEntry fe ++ framesBytes rest).length =
          payloadLen fe + (framesBytes rest).length := by
        simp [hser]
      rw [if_neg (by rw [hlenRest]; omega)]
      rw [List.take_left' hser, List.drop_left' hser, deserialize_serialize]
      dsimp only
      rw [ih f _ _ hrest (by omega)]
      congr 1
      show specReplayRecs (_ : KeydirMap) p (off + (8 + payloadLen fe)) rest =
        specReplayRecs (specStep kd p off fe) p (off + (8 + payloadLen fe)) rest
      congr 1
      unfold specStep
      cases hfind : kdLookup kd fe.Key with
      | none => cases fe.IsTombstone <;> simp
      | some existing =>
        cases fe.IsTombstone <;> simp [ge_iff_le]

theorem scanFrom_frames (rs : List FileEntry) (kd : KeydirMap) (p : Int) (off : Nat)
    (hb : ∀ fe ∈ rs, payloadLen fe < 2 ^ 64) :
    scanFrom kd p (framesBytes rs) off = (specReplayRecs kd p off rs, none) :=
  scanFromAux_frames rs (framesBytes rs).length kd p off hb (le_refl _)

/-! Helper lemmas about the association-list key directory and the disk. -/

theorem kdLookup_kdInsert_self (kd : KeydirMap) (k : String) (v : KeyDir) :
    kdLookup (kdInsert kd k v) k = some v := by
  unfold kdInsert
  by_cases hany : List.any kd (fun e => e.1 == k)
  · rw [if_pos hany]
    induction kd with
    | nil => simp at hany
    | cons e rest ih =>
      by_cases he : e.1 == k
      · simp [kdLookup, List.find?, he]
      · have he' : (e.1 == k) = false := by
          cases hb : e.1 == k
          · rfl
          · exact absurd hb he
        simp only [List.any_cons, he', Bool.false_or] at hany
        simpa [kdLookup, List.find?, he'] using ih hany
  · rw [if_neg hany]
    induction kd with
    | nil => simp [kdLookup, List.find?]
    | cons e rest ih =>
      simp only [List.any_cons, Bool.or_eq_true, not_or] at hany
      have he : (e.1 == k) = false := by
        cases h : e.1 == k
        · rfl
        · exact absurd h hany.1
      simp only [List.append, List.cons_append, kdLookup, List.find?, he]
      exact ih hany.2

theorem kdLookup_kdErase_self (kd : KeydirMap) (k : String) :
    kdLookup (kdErase kd k) k = none := by
  unfold kdErase
  induction kd with
  | nil => simp [kdLookup, List.find?]
  | cons e rest ih =>
    by_cases he : e.1 == k
    · simp only [List.filter, he, Bool.not_true]
      exact ih
    · have he' : (e.1 == k) = false := by
        cases h : e.1 == k
        · rfl
        · exact absurd h he
      simp only [List.filter, he', Bool.not_false, kdLookup, List.find?, he']
      exact ih

theorem kdInsert_mem {kd : KeydirMap} {k : String} {v : KeyDir} {kv : String × KeyDir}
    (h : kv ∈ kdInsert kd k v) : kv = (k, v) ∨ kv ∈ kd := by
  unfold kdInsert at h
  by_cases hany : List.any kd (fun e => e.1 == k)
  · rw [if_pos hany] at h
    obtain ⟨e, he, heq⟩ := List.mem_map.mp h
    by_cases hk : e.1 == k
    · rw [if_pos hk] at heq
      exact Or.inl heq.symm
    · rw [if_neg hk] at heq
      exact Or.inr (heq ▸ he)
  · rw [if_neg hany] at h
    rcases List.mem_append.mp h with h1 | h1
    · exact Or.inr h1
    · simp at h1
      exact Or.inl (by cases h1; rfl)

theorem kdErase_mem {kd : KeydirMap} {k : String} {kv : String × KeyDir}
    (h : kv ∈ kdErase kd k) : kv ∈ kd :=
  List.mem_of_mem_filter h

theorem kdLookup_mem {kd : KeydirMap} {k : String} {r : KeyDir}
    (h : kdLookup kd k = some r) : ∃ k', (k', r) ∈ kd := by
  unfold kdLookup at h
  cases hf : List.find? (fun e => e.1 == k) kd with
  | none => rw [hf] at h; cases h
  | some e =>
    rw [hf] at h
    have hm := List.mem_of_find?_eq_some hf
    cases h
    exact ⟨e.1, by simpa using hm⟩

theorem diskGet_last (init : Disk) (p : Int) (c : List Nat)
    (h : ∀ x ∈ init, x.1 ≠ p) :
    diskGet (init ++ [(p, c)]) p = some c := by
  induction init with
  | nil => simp [diskGet, List.find?]
  | cons f rest ih =>
    have hne : (f.1 == p) = false := by
      cases hb : f.1 == p
      · rfl
      · exact absurd (by simpa using hb) (h f (by simp))
    simp only [List.cons_append, diskGet, List.find?, hne]
    exact ih (fun x hx => h x (by simp [hx]))

theorem diskWrite_last (init : Disk) (p : Int) (c bs : List Nat)
    (h : ∀ x ∈ init, x.1 ≠ p) :
    diskWrite (init ++ [(p, c)]) p bs = init ++ [(p, c ++ bs)] := by
  induction init with
  | nil => simp [diskWrite]
  | cons f rest ih =>
    have hne : (f.1 == p) = false := by
      cases hb : f.1 == p
      · rfl
      · exact absurd (by simpa using hb) (h f (by simp))
    simp only [List.cons_append, diskWrite, List.map_cons, hne, if_neg]
    refine congrArg (f :: ·) ?_
    exact ih (fun x hx => h x (by simp [hx]))

theorem diskOpenCreate_of_mem {d : Disk} {p : Int} (h : p ∈ filesOf d) :
    diskOpenCreate d p = d := by
  unfold diskOpenCreate
  rw [if_pos]
  obtain ⟨f, hf, hfp⟩ := List.mem_map.mp h
  exact List.any_eq_true.mpr ⟨f, hf, by simp [hfp]⟩

theorem diskOpenCreate_of_not_mem {d : Disk} {p : Int} (h : p ∉ filesOf d) :
    diskOpenCreate d p = d ++ [(p, [])] := by
  have hany : ¬List.any d (fun f => f.1 == p) = true := by
    intro hany
    obtain ⟨f, hf, hfp⟩ := List.any_eq_true.mp hany
    exact h (List.mem_map.mpr ⟨f, hf, by simpa using hfp⟩)
  unfold diskOpenCreate
  rw [if_neg hany]
  rfl

theorem diskGet_append_of_mem {d : Disk} {f : Int} (d' : Disk) (h : f ∈ filesOf d) :
    diskGet (d ++ d') f = diskGet d f := by
  induction d with
  | nil => simp [filesOf] at h
  | cons g rest ih =>
    by_cases hg : g.1 == f
    · simp [diskGet, List.find?, hg]
    · have hg' : (g.1 == f) = false := by
        cases hb : g.1 == f
        · rfl
        · exact absurd hb hg
      simp only [List.cons_append, diskGet, List.find?, hg']
      have : f ∈ filesOf rest := by
        rcases List.mem_map.mp h with ⟨x, hx, hxf⟩
        rcases List.mem_cons.mp hx with h1 | h1
        · have hgf : g.1 = f := by rw [← h1]; exact hxf
          exact absurd (by simp [hgf]) hg
        · exact List.mem_map.mpr ⟨x, h1, hxf⟩
      exact ih this

theorem sortFilesByTs_eq_self {d : Disk} (h : List.Pairwise (· < ·) (filesOf d)) :
    sortFilesByTs d = d := by
  induction d with
  | nil => rfl
  | cons f rest ih =>
    have hh : List.Pairwise (· < ·) (f.1 :: filesOf rest) := h
    have hp := List.pairwise_cons.mp hh
    rw [sortFilesByTs, ih hp.2]
    cases rest with
    | nil => rfl
    | cons g r =>
      have hle : f.1 ≤ g.1 := le_of_lt (hp.1 g.1 (List.mem_map.mpr ⟨g, by simp, rfl⟩))
      rw [insertFileByTs, if_pos hle]

theorem buildIndexLoop_append (kd : KeydirMap) (fs gs : Disk) :
    buildIndexLoop kd (fs ++ gs) =
      match buildIndexLoop kd fs with
      | (kd1, none) => buildIndexLoop kd1 gs
      | (kd1, some e) => (kd1, some e) := by
  induction fs generalizing kd with
  | nil => simp [buildIndexLoop]
  | cons f rest ih =>
    simp only [List.cons_append, buildIndexLoop]
    cases hpf : processOldFile kd f.1 f.2 with
    | mk kd1 err =>
      cases err with
      | none => exact ih kd1
      | some e => rfl

theorem framesBytes_append (rs ss : List FileEntry) :
    framesBytes (rs ++ ss) = framesBytes rs ++ framesBytes ss := by
  simp [framesBytes]

theorem framesBytes_cons (r : FileEntry) (rs : List FileEntry) :
    framesBytes (r :: rs) = frameBytes r ++ framesBytes rs := by
  simp [framesBytes]

theorem specReplayRecs_append (kd : KeydirMap) (p : Int) (off : Nat)
    (rs : List FileEntry) (fe : FileEntry) :
    specReplayRecs kd p off (rs ++ [fe]) =
      specStep (specReplayRecs kd p off rs) p (off + (framesBytes rs).length) fe := by
  induction rs generalizing kd off with
  | nil => simp [specReplayRecs, framesBytes]
  | cons r rest ih =>
    have h1 : specReplayRecs kd p off ((r :: rest) ++ [fe]) =
        specReplayRecs (specStep kd p off r) p (off + (8 + payloadLen r)) (rest ++ [fe]) := rfl
    have h2 : specReplayRecs kd p off (r :: rest) =
        specReplayRecs (specStep kd p off r) p (off + (8 + payloadLen r)) rest := rfl
    rw [h1, ih, h2]
    have h3 : off + (8 + payloadLen r) + (framesBytes rest).length =
        off + (framesBytes (r :: rest)).length := by
      rw [framesBytes_cons, List.length_append, frameBytes_length]
      omega
    rw [h3]

theorem Inv_mono {be : BitcaskEngine} {d : Disk} {t t' : Int}
    (inv : Inv be d t) (h : t ≤ t') : Inv be d t' := by
  obtain ⟨init, p, c, rs, h1, h2, h3, h4, h5, h6⟩ := inv.active
  exact ⟨⟨init, p, c, rs, h1, h2, h3, h4, h5, le_trans h6 h⟩, inv.sorted, inv.replay,
    fun kv hkv => le_trans (inv.tstamps kv hkv) h, inv.fileIds⟩

/-- Evaluation of `putFileEntry` when no rollover is needed. -/
theorem putFileEntry_noRoll (be : BitcaskEngine) (d : Disk) (fe : FileEntry) (now : Int)
    (p : Int) (h : be.ActiveFile = some p)
    (hc : ¬(((diskSize d p : Nat) : Int) + (((8 + (serializeFileEntry fe).length : Nat) : Nat) : Int)
      > be.MaxFileSize)) :
    putFileEntry be d fe now =
      .ok ({ FileID := p, ValueSz := 8 + (serializeFileEntry fe).length,
             ValuePos := be.ActivePos, Tstamp := fe.Tstamp },
           { be with ActivePos := diskSize d p + 8 + (serializeFileEntry fe).length },
           diskWrite d p (toBE8 (serializeFileEntry fe).length ++ serializeFileEntry fe)) := by
  unfold putFileEntry
  rw [h]
  dsimp only
  rw [if_neg hc]
  dsimp only
  rw [h]

/-- Evaluation of `putFileEntry` when the size check triggers a rollover:
the engine closes the active file and opens `<now>.data` — which is the
same on-disk file when one named `<now>.data` already exists — and then
appends with the fresh handle's position, 0, recorded as the locator
offset. -/
theorem putFileEntry_roll (be : BitcaskEngine) (d : Disk) (fe : FileEntry) (now : Int)
    (p : Int) (h : be.ActiveFile = some p)
    (hc : (((diskSize d p : Nat) : Int) + (((8 + (serializeFileEntry fe).length : Nat) : Nat) : Int)
      > be.MaxFileSize)) :
    putFileEntry be d fe now =
      .ok ({ FileID := now, ValueSz := 8 + (serializeFileEntry fe).length,
             ValuePos := 0, Tstamp := fe.Tstamp },
           { be with ActiveFile := some now,
                     ActivePos := diskSize (diskOpenCreate d now) now + 8 +
                       (serializeFileEntry fe).length },
           diskWrite (diskOpenCreate d now) now
             (toBE8 (serializeFileEntry fe).length ++ serializeFileEntry fe)) := by
  unfold putFileEntry
  rw [h]
  dsimp only
  rw [if_pos hc]
  rfl

theorem filesOf_append_single (l : Disk) (p : Int) (c : List Nat) :
    filesOf (l ++ [(p, c)]) = filesOf l ++ [p] := by
  simp [filesOf]

theorem sorted_last {init : Disk} {p : Int} {c : List Nat}
    (h : List.Pairwise (· < ·) (filesOf (init ++ [(p, c)]))) :
    ∀ x ∈ init, x.1 < p := by
  rw [filesOf_append_single] at h
  have h3 := (List.pairwise_append.mp h).2.2
  intro x hx
  exact h3 x.1 (List.mem_map.mpr ⟨x, hx, rfl⟩) p (by simp)

theorem buildIndexLoop_snoc_ok {kd0 kd : KeydirMap} {fs : Disk} {f : Int × List Nat}
    (h : buildIndexLoop kd0 (fs ++ [f]) = (kd, none)) :
    ∃ kd1, buildIndexLoop kd0 fs = (kd1, none) ∧ processOldFile kd1 f.1 f.2 = (kd, none) := by
  rw [buildIndexLoop_append] at h
  cases hfs : buildIndexLoop kd0 fs with
  | mk kd1 e =>
    cases e with
    | none =>
      rw [hfs] at h
      dsimp only at h
      refine ⟨kd1, rfl, ?_⟩
      unfold buildIndexLoop at h
      cases hpf : processOldFile kd1 f.1 f.2 with
      | mk kd2 e2 =>
        rw [hpf] at h
        cases e2 with
        | none =>
          unfold buildIndexLoop at h
          cases h
          rfl
        | some e3 => cases h
    | some e3 =>
      rw [hfs] at h
      cases h

theorem buildIndexLoop_snoc {kd0 kd1 kd2 : KeydirMap} {fs : Disk} {f : Int × List Nat}
    (h1 : buildIndexLoop kd0 fs = (kd1, none))
    (h2 : processOldFile kd1 f.1 f.2 = (kd2, none)) :
    buildIndexLoop kd0 (fs ++ [f]) = (kd2, none) := by
  rw [buildIndexLoop_append, h1]
  dsimp only
  unfold buildIndexLoop
  rw [h2]
  rfl

theorem processOldFile_frames (kd : KeydirMap) (p : Int) (rs : List FileEntry)
    (hb : ∀ fe ∈ rs, payloadLen fe < 2 ^ 64) :
    processOldFile kd p (framesBytes rs) = (specReplayRecs kd p 0 rs, none) :=
  scanFrom_frames rs kd p 0 hb

theorem framesBytes_single (fe : FileEntry) : framesBytes [fe] = frameBytes fe := by
  simp [framesBytes]

/-- Appending one record through `putFileEntry`, from an invariant state
with a collision-free clock, succeeds, returns the exact locator of the
new record, and moves the replay of the disk forward by exactly one
`specStep` on that locator. -/
theorem putFileEntry_spec (be : BitcaskEngine) (d : Disk) (tmax : Int) (inv : Inv be d tmax)
    (fe : FileEntry) (now : Int) (hnow : tmax ≤ now)
    (hbound : payloadLen fe < 2 ^ 64) (hsafe : rollSafe be d fe now = true) :
    ∃ q off be1 d1,
      putFileEntry be d fe now =
        .ok ({ FileID := q, ValueSz := 8 + payloadLen fe, ValuePos := off,
               Tstamp := fe.Tstamp }, be1, d1) ∧
      be1.Keydir = be.Keydir ∧ be1.MaxFileSize = be.MaxFileSize ∧
      buildIndexLoop [] d1 = (specStep be.Keydir q off fe, none) ∧
      List.Pairwise (· < ·) (filesOf d1) ∧
      q ∈ filesOf d1 ∧ q ≤ now ∧
      (∀ f, f ∈ filesOf d → f ∈ filesOf d1) ∧
      (∃ init1 c1 rs1, be1.ActiveFile = some q ∧ d1 = init1 ++ [(q, c1)] ∧
        be1.ActivePos = c1.length ∧ c1 = framesBytes rs1 ∧
        (∀ r ∈ rs1, payloadLen r < 2 ^ 64)) := by
  obtain ⟨init, p, c, rs, haf, hd, hpos, hc, hrsb, hple⟩ := inv.active
  have hsorted := inv.sorted
  have hinitlt : ∀ x ∈ init, x.1 < p := sorted_last (by rw [hd] at hsorted; exact hsorted)
  have hinitne : ∀ x ∈ init, x.1 ≠ p := fun x hx => ne_of_lt (hinitlt x hx)
  have hsize : diskSize d p = c.length := by
    unfold diskSize
    rw [hd, diskGet_last init p c hinitne]
    rfl
  have hreplay := inv.replay
  rw [hd] at hreplay
  obtain ⟨kdPre, hloopInit, hscanC⟩ := buildIndexLoop_snoc_ok hreplay
  have hscanC' : specReplayRecs kdPre p 0 rs = be.Keydir := by
    have := hscanC
    dsimp only at this
    rw [hc, processOldFile_frames kdPre p rs hrsb] at this
    exact (Prod.mk.injEq _ _ _ _ ▸ this).1
  have hframe : toBE8 (serializeFileEntry fe).length ++ serializeFileEntry fe = frameBytes fe := rfl
  by_cases hcond : (((diskSize d p : Nat) : Int) +
      (((8 + (serializeFileEntry fe).length : Nat) : Nat) : Int) > be.MaxFileSize)
  · -- rollover at second `now`; `rollSafe` guarantees `p < now`
    have hplt : p < now := by
      unfold rollSafe at hsafe
      rw [haf] at hsafe
      dsimp only at hsafe
      have hcond' : ((diskSize d p : Nat) : Int) + (((8 + payloadLen fe : Nat) : Nat) : Int) >
          be.MaxFileSize := hcond
      rw [if_pos hcond'] at hsafe
      exact of_decide_eq_true hsafe
    have hltnow : ∀ a ∈ filesOf d, a < now := by
      intro a ha
      rw [hd, filesOf_append_single] at ha
      rcases List.mem_append.mp ha with h1 | h1
      · obtain ⟨x, hx, hxa⟩ := List.mem_map.mp h1
        exact lt_trans (hxa ▸ hinitlt x hx) hplt
      · simp at h1
        omega
    have hnotmem : now ∉ filesOf d := fun hmem => absurd (hltnow now hmem) (by omega)
    have hopen : diskOpenCreate d now = d ++ [(now, [])] := diskOpenCreate_of_not_mem hnotmem
    have hdne : ∀ x ∈ d, x.1 ≠ now := by
      intro x hx
      exact ne_of_lt (hltnow x.1 (List.mem_map.mpr ⟨x, hx, rfl⟩))
    have hsize0 : diskSize (diskOpenCreate d now) now = 0 := by
      unfold diskSize
      rw [hopen, diskGet_last d now [] hdne]
      rfl
    have hwrite : diskWrite (diskOpenCreate d now) now
        (toBE8 (serializeFileEntry fe).length ++ serializeFileEntry fe) =
        d ++ [(now, frameBytes fe)] := by
      rw [hopen, hframe, diskWrite_last d now [] (frameBytes fe) hdne]
      simp
    refine ⟨now, 0, _, _, putFileEntry_roll be d fe now p haf hcond, rfl, rfl, ?_, ?_, ?_, le_refl now, ?_, ?_⟩
    · -- replay of the grown disk
      rw [hwrite]
      refine buildIndexLoop_snoc inv.replay ?_
      show processOldFile be.Keydir now (frameBytes fe) = (specStep be.Keydir now 0 fe, none)
      rw [← framesBytes_single, processOldFile_frames be.Keydir now [fe]
        (by intro r hr; simp at hr; rw [hr]; exact hbound)]
      rfl
    · rw [hwrite, filesOf_append_single]
      exact List.pairwise_append.mpr ⟨inv.sorted, List.pairwise_singleton _ _,
        fun a ha b hb => by simp at hb; rw [hb]; exact hltnow a ha⟩
    · rw [hwrite, filesOf_append_single]
      simp
    · intro f hf
      rw [hwrite, filesOf_append_single]
      exact List.mem_append.mpr (Or.inl hf)
    · refine ⟨d, frameBytes fe, [fe], rfl, hwrite, ?_, (framesBytes_single fe).symm, ?_⟩
      · show diskSize (diskOpenCreate d now) now + 8 + (serializeFileEntry fe).length =
          (frameBytes fe).length
        rw [hsize0, frameBytes_length]
        rfl
      · intro r hr
        simp at hr
        rw [hr]
        exact hbound
  · -- no rollover: append to the current active file `p`
    have hwrite : diskWrite d p
        (toBE8 (serializeFileEntry fe).length ++ serializeFileEntry fe) =
        init ++ [(p, c ++ frameBytes fe)] := by
      rw [hframe, hd, diskWrite_last init p c (frameBytes fe) hinitne]
    have hgrow : c ++ frameBytes fe = framesBytes (rs ++ [fe]) := by
      rw [framesBytes_append, framesBytes_single, hc]
    have hboundAll : ∀ r ∈ rs ++ [fe], payloadLen r < 2 ^ 64 := by
      intro r hr
      rcases List.mem_append.mp hr with h1 | h1
      · exact hrsb r h1
      · simp at h1; rw [h1]; exact hbound
    refine ⟨p, be.ActivePos, _, _, putFileEntry_noRoll be d fe now p haf hcond, rfl, rfl,
      ?_, ?_, ?_, le_trans hple hnow, ?_, ?_⟩
    · rw [hwrite]
      refine buildIndexLoop_snoc hloopInit ?_
      show processOldFile kdPre p (c ++ frameBytes fe) = (specStep be.Keydir p be.ActivePos fe, none)
      rw [hgrow, processOldFile_frames kdPre p (rs ++ [fe]) hboundAll,
        specReplayRecs_append, hscanC']
      have hoff : 0 + (framesBytes rs).length = be.ActivePos := by
        rw [hpos, hc]
        omega
      rw [hoff]
    · rw [hwrite, filesOf_append_single]
      rw [hd, filesOf_append_single] at hsorted
      exact hsorted
    · rw [hwrite, filesOf_append_single]
      simp
    · intro f hf
      rw [hwrite, filesOf_append_single]
      rw [hd, filesOf_append_single] at hf
      exact hf
    · refine ⟨init, c ++ frameBytes fe, rs ++ [fe], haf, hwrite, ?_, hgrow, hboundAll⟩
      show diskSize d p + 8 + (serializeFileEntry fe).length = (c ++ frameBytes fe).length
      rw [hsize, List.length_append, frameBytes_length]
      unfold payloadLen
      omega

/-- The replay step on a fresh non-tombstone record (timestamp at least as
new as every directory entry) is exactly the insert the write path
performs. -/
theorem specStep_put (kd : KeydirMap) (q : Int) (off : Nat) (k v : String) (now tmax : Int)
    (hts : ∀ kv ∈ kd, kv.2.Tstamp ≤ tmax) (hnow : tmax ≤ now) :
    specStep kd q off (NewFileEntry k v false now) =
      kdInsert kd k { FileID := q, ValueSz := 8 + payloadLen (NewFileEntry k v false now), ValuePos := off, Tstamp := now } := by
  unfold specStep
  cases hlk : kdLookup kd (NewFileEntry k v false now).Key with
  | none => rfl
  | some ex =>
    obtain ⟨k', hk'⟩ := kdLookup_mem hlk
    have hex : ex.Tstamp ≤ (NewFileEntry k v false now).Tstamp :=
      le_trans (hts (k', ex) hk') hnow
    dsimp only
    rw [if_pos hex]
    rfl

/-- The replay step on a fresh tombstone is exactly the removal the delete
path performs. -/
theorem specStep_del (kd : KeydirMap) (q : Int) (off : Nat) (k : String) (now tmax : Int)
    (hts : ∀ kv ∈ kd, kv.2.Tstamp ≤ tmax) (hnow : tmax ≤ now) :
    specStep kd q off (NewFileEntry k "" true now) = kdErase kd k := by
  unfold specStep
  cases hlk : kdLookup kd (NewFileEntry k "" true now).Key with
  | none => rfl
  | some ex =>
    obtain ⟨k', hk'⟩ := kdLookup_mem hlk
    have hex : ex.Tstamp ≤ (NewFileEntry k "" true now).Tstamp :=
      le_trans (hts (k', ex) hk') hnow
    dsimp only
    rw [if_pos hex]
    rfl

theorem Inv_Put (be : BitcaskEngine) (d : Disk) (tmax : Int) (inv : Inv be d tmax)
    (k v : String) (now : Int) (hnow : tmax ≤ now)
    (hbound : payloadLen (NewFileEntry k v false now) < 2 ^ 64)
    (hsafe : rollSafe be d (NewFileEntry k v false now) now = true) :
    (Put be d k v now).1 = .ok () ∧
    Inv (Put be d k v now).2.1 (Put be d k v now).2.2 now := by
  obtain ⟨q, off, be1, d1, heq, hkd, hmax, hrep1, hsort1, hqmem, hqle, hsub,
    init1, c1, rs1, haf1, hd1, hpos1, hc1, hrsb1⟩ :=
    putFileEntry_spec be d tmax inv (NewFileEntry k v false now) now hnow hbound hsafe
  have hput : Put be d k v now =
      (.ok (), { be1 with Keydir := kdInsert be1.Keydir k { FileID := q, ValueSz := 8 + payloadLen (NewFileEntry k v false now), ValuePos := off, Tstamp := (NewFileEntry k v false now).Tstamp } }, d1) := by
    unfold Put
    dsimp only
    rw [heq]
  rw [hput]
  refine ⟨rfl, ?_⟩
  constructor
  · exact ⟨init1, q, c1, rs1, haf1, hd1, hpos1, hc1, hrsb1, hqle⟩
  · exact hsort1
  · dsimp only
    rw [hrep1, hkd, specStep_put be.Keydir q off k v now tmax inv.tstamps hnow]
    rfl
  · intro kv hkv
    rcases kdInsert_mem hkv with h1 | h1
    · rw [h1]
      exact le_refl now
    · exact le_trans (inv.tstamps kv (hkd ▸ h1)) hnow
  · intro kv hkv
    rcases kdInsert_mem hkv with h1 | h1
    · rw [h1]
      exact hqmem
    · exact hsub _ (inv.fileIds kv (hkd ▸ h1))

theorem Inv_Delete (be : BitcaskEngine) (d : Disk) (tmax : Int) (inv : Inv be d tmax)
    (k : String) (now : Int) (hnow : tmax ≤ now)
    (hbound : payloadLen (NewFileEntry k "" true now) < 2 ^ 64)
    (hsafe : ∀ ex, kdLookup be.Keydir k = some ex →
      rollSafe be d (NewFileEntry k "" true now) now = true) :
    Inv (Delete be d k now).2.1 (Delete be d k now).2.2 now := by
  cases hlk : kdLookup be.Keydir k with
  | none =>
    have hdel : Delete be d k now = (.error .deleteMissing, be, d) := by
      unfold Delete
      rw [hlk]
    rw [hdel]
    exact Inv_mono inv hnow
  | some ex =>
    obtain ⟨q, off, be1, d1, heq, hkd, hmax, hrep1, hsort1, hqmem, hqle, hsub,
      init1, c1, rs1, haf1, hd1, hpos1, hc1, hrsb1⟩ :=
      putFileEntry_spec be d tmax inv (NewFileEntry k "" true now) now hnow hbound (hsafe ex hlk)
    have hdel : Delete be d k now =
        (.ok (), { be1 with Keydir := kdErase be1.Keydir k }, d1) := by
      unfold Delete
      rw [hlk]
      dsimp only
      rw [heq]
    rw [hdel]
    constructor
    · exact ⟨init1, q, c1, rs1, haf1, hd1, hpos1, hc1, hrsb1, hqle⟩
    · exact hsort1
    · dsimp only
      rw [hrep1, hkd, specStep_del be.Keydir q off k now tmax inv.tstamps hnow]
    · intro kv hkv
      exact le_trans (inv.tstamps kv (hkd ▸ kdErase_mem hkv)) hnow
    · intro kv hkv
      exact hsub _ (inv.fileIds kv (hkd ▸ kdErase_mem hkv))

theorem Inv_stepOp (s : BitcaskEngine × Disk) (tmax : Int) (inv : Inv s.1 s.2 tmax)
    (op : SOp × Int) (hnow : tmax ≤ op.2) (hbound : opBound op = true)
    (hsafe : safeOp s op = true) :
    Inv (stepOp s op).1 (stepOp s op).2 op.2 := by
  obtain ⟨o, t⟩ := op
  cases o with
  | putOp k v =>
    have hb : payloadLen (NewFileEntry k v false t) < 2 ^ 64 := of_decide_eq_true hbound
    exact (Inv_Put s.1 s.2 tmax inv k v t hnow hb hsafe).2
  | delOp k =>
    have hb : payloadLen (NewFileEntry k "" true t) < 2 ^ 64 := of_decide_eq_true hbound
    refine Inv_Delete s.1 s.2 tmax inv k t hnow hb ?_
    intro ex hex
    have : safeOp s (SOp.delOp k, t) = rollSafe s.1 s.2 (NewFileEntry k "" true t) t := by
      unfold safeOp
      dsimp only
      rw [hex]
      rfl
    rw [this] at hsafe
    exact hsafe

theorem Inv_runOps (ops : List (SOp × Int)) (s : BitcaskEngine × Disk) (tmax : Int)
    (inv : Inv s.1 s.2 tmax)
    (hmono : List.Chain' (· ≤ ·) (tmax :: ops.map Prod.snd))
    (hbound : ops.all opBound = true)
    (hsafe : safeRun s ops = true) :
    Inv (runOps s ops).1 (runOps s ops).2 (lastTime tmax ops) := by
  induction ops generalizing s tmax with
  | nil => exact inv
  | cons op rest ih =>
    rw [List.map_cons] at hmono
    have h1 := List.chain'_cons.mp hmono
    rw [List.all_cons, Bool.and_eq_true] at hbound
    rw [safeRun, Bool.and_eq_true] at hsafe
    have hstep := Inv_stepOp s tmax inv op h1.1 hbound.1 hsafe.1
    have hrec := ih (stepOp s op) op.2 hstep h1.2 hbound.2 hsafe.2
    have hrun : runOps s (op :: rest) = runOps (stepOp s op) rest := rfl
    have hlast : lastTime tmax (op :: rest) = lastTime op.2 rest := by
      unfold lastTime
      rw [List.map_cons, List.getLastD_cons]
    rw [hrun, hlast]
    exact hrec

/-- The invariant holds for a fresh engine on an empty data directory, with
any configured `MaxFileSize` (set by the embedder before the first write,
per the spec's configuration contract). -/
theorem Inv_init (t0 m : Int) :
    Inv { (NewBistcaskEngine [] t0).1 with MaxFileSize := m }
      (NewBistcaskEngine [] t0).2 t0 := by
  constructor
  · exact ⟨[], t0, [], [], rfl, rfl, rfl, rfl, by simp, le_refl t0⟩
  · show List.Pairwise (· < ·) [t0]
    exact List.pairwise_singleton _ _
  · rfl
  · intro kv hkv
    simp [NewBistcaskEngine] at hkv
  · intro kv hkv
    simp [NewBistcaskEngine] at hkv

theorem Close_ok (be : BitcaskEngine) : (Close be).1 = .ok () := by
  unfold Close
  cases be.ActiveFile <;> rfl

/-- `Get` results depend only on the key directory and the content of the
files the directory points at. -/
theorem Get_fst_eq (be be' : BitcaskEngine) (d d' : Disk) (key : String)
    (hkd : be.Keydir = be'.Keydir)
    (hdg : ∀ r : KeyDir, kdLookup be.Keydir key = some r →
      diskGet d r.FileID = diskGet d' r.FileID) :
    (Get be d key).1 = (Get be' d' key).1 := by
  unfold Get
  rw [← hkd]
  cases hlk : kdLookup be.Keydir key with
  | none => rfl
  | some r =>
    have hfetch : fetchFromDisk d r = fetchFromDisk d' r := by
      unfold fetchFromDisk
      rw [hdg r hlk]
    dsimp only
    rw [hfetch]
    cases fetchFromDisk d' r with
    | error e => rfl
    | ok entry => by_cases ht : entry.IsTombstone = true <;> simp [ht]

/-- C2 amended: for every sequence of put/delete operations run at
nondecreasing wall-clock seconds on a fresh data directory, with every
triggered rollover at a second strictly after the active file's
name-second (`safeRun`), ending with `close`: a new engine opened on the
directory at any later-or-equal second, after `build_index`, answers every
`get` exactly as the first engine did just before `close` — same values
and same failures. -/
theorem persistence_amended (t0 m tr : Int) (ops : List (SOp × Int))
    (hmono : List.Chain' (· ≤ ·) (t0 :: ops.map Prod.snd))
    (hbound : ops.all opBound = true)
    (hsafe : safeRun (initialState t0 m) ops = true)
    (htr : lastTime t0 ops ≤ tr) :
    (Close (finalState t0 m ops).1).1 = .ok () ∧
    (BuildIndex (reopenedState t0 m ops tr).1 (reopenedState t0 m ops tr).2).1 = .ok () ∧
    ∀ key, (Get (rebuiltEngine t0 m ops tr) (reopenedState t0 m ops tr).2 key).1 =
      (Get (finalState t0 m ops).1 (finalState t0 m ops).2 key).1 := by
  have inv : Inv (finalState t0 m ops).1 (finalState t0 m ops).2 (lastTime t0 ops) :=
    Inv_runOps ops (initialState t0 m) t0 (Inv_init t0 m) hmono hbound hsafe
  obtain ⟨init, p, c, rs, haf, hd, hpos, hc, hrsb, hple⟩ := inv.active
  have hall_le : ∀ a ∈ filesOf (finalState t0 m ops).2, a ≤ p := by
    intro a ha
    rw [hd, filesOf_append_single] at ha
    rcases List.mem_append.mp ha with h1 | h1
    · obtain ⟨x, hx, hxa⟩ := List.mem_map.mp h1
      exact le_of_lt (hxa ▸ sorted_last (hd ▸ inv.sorted) x hx)
    · simp at h1
      omega
  have hkd2 : (reopenedState t0 m ops tr).1.Keydir = [] := rfl
  refine ⟨Close_ok _, ?_⟩
  by_cases htrmem : tr ∈ filesOf (finalState t0 m ops).2
  · -- reopening at the same second as the last segment reuses that file
    have hd2 : (reopenedState t0 m ops tr).2 = (finalState t0 m ops).2 :=
      diskOpenCreate_of_mem htrmem
    have hbuild : BuildIndex (reopenedState t0 m ops tr).1 (reopenedState t0 m ops tr).2 =
        (.ok (), { (reopenedState t0 m ops tr).1 with Keydir := (finalState t0 m ops).1.Keydir }) := by
      unfold BuildIndex
      rw [hd2, sortFilesByTs_eq_self inv.sorted, hkd2, inv.replay]
    refine ⟨by rw [hbuild], ?_⟩
    intro key
    have hkdeq : (rebuiltEngine t0 m ops tr).Keydir = (finalState t0 m ops).1.Keydir := by
      unfold rebuiltEngine
      rw [hbuild]
    refine Get_fst_eq _ _ _ _ key hkdeq ?_
    intro r _
    rw [hd2]
  · -- reopening at a strictly later second creates a new, empty segment
    have hd2 : (reopenedState t0 m ops tr).2 = (finalState t0 m ops).2 ++ [(tr, [])] :=
      diskOpenCreate_of_not_mem htrmem
    have htrgt : ∀ a ∈ filesOf (finalState t0 m ops).2, a < tr := by
      intro a ha
      have h1 : a ≤ p := hall_le a ha
      have h2 : p ≤ tr := le_trans hple htr
      rcases lt_or_eq_of_le (le_trans h1 h2) with h3 | h3
      · exact h3
      · exact absurd (h3 ▸ ha) htrmem
    have hsort2 : List.Pairwise (· < ·) (filesOf ((finalState t0 m ops).2 ++ [(tr, [])])) := by
      rw [filesOf_append_single]
      exact List.pairwise_append.mpr ⟨inv.sorted, List.pairwise_singleton _ _,
        fun a ha b hb => by simp at hb; rw [hb]; exact htrgt a ha⟩
    have hloop2 : buildIndexLoop [] ((finalState t0 m ops).2 ++ [(tr, [])]) =
        ((finalState t0 m ops).1.Keydir, none) :=
      buildIndexLoop_snoc inv.replay rfl
    have hbuild : BuildIndex (reopenedState t0 m ops tr).1 (reopenedState t0 m ops tr).2 =
        (.ok (), { (reopenedState t0 m ops tr).1 with Keydir := (finalState t0 m ops).1.Keydir }) := by
      unfold BuildIndex
      rw [hd2, sortFilesByTs_eq_self hsort2, hkd2, hloop2]
    refine ⟨by rw [hbuild], ?_⟩
    intro key
    have hkdeq : (rebuiltEngine t0 m ops tr).Keydir = (finalState t0 m ops).1.Keydir := by
      unfold rebuiltEngine
      rw [hbuild]
    refine Get_fst_eq _ _ _ _ key hkdeq ?_
    intro r hr
    rw [hd2]
    refine diskGet_append_of_mem _ ?_
    have hr' : kdLookup (finalState t0 m ops).1.Keydir key = some r := by
      rw [← hkdeq]
      exact hr
    obtain ⟨k', hk'⟩ := kdLookup_mem hr'
    exact inv.fileIds (k', r) hk'

theorem diskGet_cons_pos (f : Int × List Nat) (rest : Disk) (p : Int)
    (hf : (f.1 == p) = true) : diskGet (f :: rest) p = some f.2 := by
  unfold diskGet
  simp [List.find?, hf]

theorem diskGet_cons_neg (f : Int × List Nat) (rest : Disk) (p : Int)
    (hf : (f.1 == p) = false) : diskGet (f :: rest) p = diskGet rest p := by
  unfold diskGet
  simp [List.find?, hf]

theorem diskGet_diskWrite_self {d : Disk} {p : Int} {cp : List Nat}
    (h : diskGet d p = some cp) (bs : List Nat) :
    diskGet (diskWrite d p bs) p = some (cp ++ bs) := by
  induction d with
  | nil => simp [diskGet, List.find?] at h
  | cons f rest ih =>
    by_cases hf : f.1 == p
    · have hcp : f.2 = cp := by
        rw [diskGet_cons_pos f rest p hf] at h
        cases h
        rfl
      have hstep : diskWrite (f :: rest) p bs = (f.1, f.2 ++ bs) :: diskWrite rest p bs := by
        unfold diskWrite
        rw [List.map_cons, if_pos hf]
        rfl
      rw [hstep, diskGet_cons_pos (f.1, f.2 ++ bs) (diskWrite rest p bs) p hf, hcp]
    · have hf' : (f.1 == p) = false := by
        cases hb : f.1 == p
        · rfl
        · exact absurd hb hf
      have h' : diskGet rest p = some cp := by
        rwa [diskGet_cons_neg f rest p hf'] at h
      have hstep : diskWrite (f :: rest) p bs = f :: diskWrite rest p bs := by
        unfold diskWrite
        rw [List.map_cons, if_neg hf]
      rw [hstep, diskGet_cons_neg f (diskWrite rest p bs) p hf']
      exact ih h'

theorem diskGet_none_not_mem {d : Disk} {p : Int} (h : diskGet d p = none) :
    p ∉ filesOf d := by
  intro hmem
  obtain ⟨f, hf, hfp⟩ := List.mem_map.mp hmem
  unfold diskGet at h
  rw [Option.map_eq_none'] at h
  have := List.find?_eq_none.mp h f hf
  simp [hfp] at this

theorem diskGet_some_mem {d : Disk} {p : Int} {c : List Nat}
    (h : diskGet d p = some c) : p ∈ filesOf d := by
  unfold diskGet at h
  cases hf : List.find? (fun f => f.1 == p) d with
  | none => rw [hf] at h; cases h
  | some f =>
    have hm := List.mem_of_find?_eq_some hf
    have hp := List.find?_some hf
    have : f.1 = p := by simpa using hp
    exact List.mem_map.mpr ⟨f, hm, this⟩

/-- Reading back a record whose locator points exactly at its frame
recovers the record: the `+8`/`-8` conventions of `fetchFromDisk` match the
`ValuePos`/`ValueSz` conventions of the write path. -/
theorem fetch_roundtrip (d1 : Disk) (q : Int) (content : List Nat) (fe : FileEntry)
    (off : Nat) (t : Int)
    (hget : diskGet d1 q = some (content ++ frameBytes fe))
    (hoff : off = content.length) :
    fetchFromDisk d1 { FileID := q, ValueSz := 8 + payloadLen fe, ValuePos := off, Tstamp := t } = .ok fe := by
  unfold fetchFromDisk
  rw [hget]
  dsimp only
  have hlen : (((8 + payloadLen fe : Nat) : Int) - 8) = ((payloadLen fe : Nat) : Int) := by
    omega
  rw [if_neg (by omega)]
  have htn : (((8 + payloadLen fe : Nat) : Int) - 8).toNat = payloadLen fe := by
    omega
  rw [htn]
  have hclen : (content ++ frameBytes fe).length = content.length + (8 + payloadLen fe) := by
    rw [List.length_append, frameBytes_length]
  rw [if_neg (by rw [hclen]; omega)]
  have hsplit : content ++ frameBytes fe =
      (content ++ toBE8 (payloadLen fe)) ++ serializeFileEntry fe := by
    simp [frameBytes, List.append_assoc]
  have hlen2 : (content ++ toBE8 (payloadLen fe)).length = off + 8 := by
    rw [List.length_append, toBE8_length, hoff]
  have hdrop : (content ++ frameBytes fe).drop (off + 8) = serializeFileEntry fe := by
    rw [hsplit, List.drop_left' hlen2]
  rw [hdrop]
  have htake : (serializeFileEntry fe).take (payloadLen fe) = serializeFileEntry fe := by
    have : payloadLen fe = (serializeFileEntry fe).length := rfl
    rw [this, List.take_length]
  rw [htake, deserialize_serialize]

/-- `Put` in terms of a known `putFileEntry` result. -/
theorem Put_eq (be : BitcaskEngine) (d : Disk) (k v : String) (now : Int)
    {kde : KeyDir} {be1 : BitcaskEngine} {d1 : Disk}
    (h : putFileEntry be d (NewFileEntry k v false now) now = .ok (kde, be1, d1)) :
    Put be d k v now = (.ok (), { be1 with Keydir := kdInsert be1.Keydir k kde }, d1) := by
  unfold Put
  dsimp only
  rw [h]

/-- `Get` on a directory hit whose record fetches as a non-tombstone. -/
theorem Get_hit (be : BitcaskEngine) (d : Disk) (k : String) {r : KeyDir} {fe : FileEntry}
    (hlk : kdLookup be.Keydir k = some r)
    (hf : fetchFromDisk d r = .ok fe)
    (ht : fe.IsTombstone = false) :
    (Get be d k).1 = .ok fe.Value := by
  unfold Get
  rw [hlk]
  dsimp only
  rw [hf]
  dsimp only
  simp [ht]

/-- C1 amended: on an open engine whose append position equals the active
file's on-disk length — true unless a same-second file-name collision
occurred at open or rollover — and whose rollover target (when a rollover
triggers) is empty or absent, `put(K,V)` then `get(K)`, with no
intervening operation on `K`, succeeds and returns exactly `V`. -/
theorem put_then_get (be : BitcaskEngine) (d : Disk) (k v : String) (now p : Int)
    (cp : List Nat)
    (haf : be.ActiveFile = some p)
    (hcp : diskGet d p = some cp)
    (hpos : be.ActivePos = cp.length)
    (hnowfile : (((diskSize d p : Nat) : Int) +
      (((8 + (serializeFileEntry (NewFileEntry k v false now)).length : Nat) : Nat) : Int) >
      be.MaxFileSize) → (diskGet d now = none ∨ diskGet d now = some [])) :
    (Put be d k v now).1 = .ok () ∧
    (Get (Put be d k v now).2.1 (Put be d k v now).2.2 k).1 = .ok v := by
  by_cases hcond : (((diskSize d p : Nat) : Int) +
      (((8 + (serializeFileEntry (NewFileEntry k v false now)).length : Nat) : Nat) : Int) >
      be.MaxFileSize)
  · -- rollover to `<now>.data`, which is empty or fresh by hypothesis
    have hput := Put_eq be d k v now (putFileEntry_roll be d (NewFileEntry k v false now) now p haf hcond)
    have hget2 : diskGet (diskWrite (diskOpenCreate d now) now
        (toBE8 (serializeFileEntry (NewFileEntry k v false now)).length ++
          serializeFileEntry (NewFileEntry k v false now))) now =
        some ([] ++ frameBytes (NewFileEntry k v false now)) := by
      rcases hnowfile hcond with hnf | hnf
      · have hnm : now ∉ filesOf d := diskGet_none_not_mem hnf
        rw [diskOpenCreate_of_not_mem hnm]
        have hne : ∀ x ∈ d, x.1 ≠ now := by
          intro x hx hxeq
          exact hnm (List.mem_map.mpr ⟨x, hx, hxeq⟩)
        have hw := diskWrite_last d now [] (frameBytes (NewFileEntry k v false now)) hne
        rw [List.nil_append] at hw
        rw [show (toBE8 (serializeFileEntry (NewFileEntry k v false now)).length ++ serializeFileEntry (NewFileEntry k v false now)) = frameBytes (NewFileEntry k v false now) from rfl]
        rw [hw, diskGet_last d now (frameBytes (NewFileEntry k v false now)) hne,
          List.nil_append]
      · rw [diskOpenCreate_of_mem (diskGet_some_mem hnf)]
        exact diskGet_diskWrite_self hnf _
    rw [hput]
    refine ⟨rfl, ?_⟩
    exact Get_hit _ _ k (kdLookup_kdInsert_self _ _ _)
      (fetch_roundtrip _ now [] (NewFileEntry k v false now) 0
        (NewFileEntry k v false now).Tstamp hget2 rfl) rfl
  · -- no rollover: append at the handle position, which is end-of-file
    have hput := Put_eq be d k v now (putFileEntry_noRoll be d (NewFileEntry k v false now) now p haf hcond)
    have hget2 : diskGet (diskWrite d p
        (toBE8 (serializeFileEntry (NewFileEntry k v false now)).length ++
          serializeFileEntry (NewFileEntry k v false now))) p =
        some (cp ++ frameBytes (NewFileEntry k v false now)) :=
      diskGet_diskWrite_self hcp _
    rw [hput]
    refine ⟨rfl, ?_⟩
    exact Get_hit _ _ k (kdLookup_kdInsert_self _ _ _)
      (fetch_roundtrip _ p cp (NewFileEntry k v false now) be.ActivePos
        (NewFileEntry k v false now).Tstamp hget2 hpos) rfl

/-- On an open engine the append path always succeeds (the model's writes
are complete), keeps the directory untouched, and keeps a handle open. -/
theorem putFileEntry_ok (be : BitcaskEngine) (d : Disk) (fe : FileEntry) (now p : Int)
    (haf : be.ActiveFile = some p) :
    ∃ kde be1 d1, putFileEntry be d fe now = .ok (kde, be1, d1) ∧
      (be1.ActiveFile = some now ∨ be1.ActiveFile = some p) ∧
      be1.Keydir = be.Keydir := by
  by_cases hcond : (((diskSize d p : Nat) : Int) +
      (((8 + (serializeFileEntry fe).length : Nat) : Nat) : Int) > be.MaxFileSize)
  · exact ⟨_, _, _, putFileEntry_roll be d fe now p haf hcond, Or.inl rfl, rfl⟩
  · exact ⟨_, _, _, putFileEntry_noRoll be d fe now p haf hcond, Or.inr haf, rfl⟩

/-- `Delete` in terms of a known lookup hit and `putFileEntry` result. -/
theorem Delete_eq (be : BitcaskEngine) (d : Disk) (k : String) (now : Int)
    {ex kde : KeyDir} {be1 : BitcaskEngine} {d1 : Disk}
    (hlk : kdLookup be.Keydir k = some ex)
    (h : putFileEntry be d (NewFileEntry k "" true now) now = .ok (kde, be1, d1)) :
    Delete be d k now = (.ok (), { be1 with Keydir := kdErase be1.Keydir k }, d1) := by
  unfold Delete
  rw [hlk]
  dsimp only
  rw [h]

/-- C7: for every key `K` and value `V`, on an open engine, `put(K,V)`
followed by `delete(K)` succeeds — the tombstone is appended and `K`'s
directory entry removed — and a subsequent `get(K)` fails with the
key-not-found error rather than returning a value. -/
theorem C7_put_delete_get (be : BitcaskEngine) (d : Disk) (k v : String)
    (now1 now2 p : Int) (haf : be.ActiveFile = some p) :
    (Delete (Put be d k v now1).2.1 (Put be d k v now1).2.2 k now2).1 = .ok () ∧
    (Get (Delete (Put be d k v now1).2.1 (Put be d k v now1).2.2 k now2).2.1
      (Delete (Put be d k v now1).2.1 (Put be d k v now1).2.2 k now2).2.2 k).1 =
      .error .keyNotFound := by
  obtain ⟨kde, be1, d1, heq, hact, hkd⟩ :=
    putFileEntry_ok be d (NewFileEntry k v false now1) now1 p haf
  rw [Put_eq be d k v now1 heq]
  dsimp only
  obtain ⟨p1, haf1⟩ : ∃ p1, be1.ActiveFile = some p1 := by
    rcases hact with h | h
    · exact ⟨now1, h⟩
    · exact ⟨p, h⟩
  obtain ⟨kde2, be2, d2, heq2, hact2, hkd2⟩ :=
    putFileEntry_ok { be1 with Keydir := kdInsert be1.Keydir k kde } d1
      (NewFileEntry k "" true now2) now2 p1 haf1
  rw [Delete_eq _ _ k now2 (kdLookup_kdInsert_self be1.Keydir k kde) heq2]
  refine ⟨rfl, ?_⟩
  dsimp only
  unfold Get
  dsimp only
  rw [hkd2]
  dsimp only
  rw [kdLookup_kdErase_self]

/-- C8: `delete(K)` when `K` is absent from the in-memory directory returns
an error and leaves the directory and the on-disk segment files exactly
unchanged. -/
theorem C8_delete_absent (be : BitcaskEngine) (d : Disk) (k : String) (now : Int)
    (h : kdLookup be.Keydir k = none) :
    Delete be d k now = (.error .deleteMissing, be, d) := by
  unfold Delete
  rw [h]

/-- C10: `get` never mutates engine state — for every key and engine state,
whatever `get` returns, the key directory, the active handle and position,
and every segment file on disk are exactly as before the call. -/
theorem C10_get_no_mutation (be : BitcaskEngine) (d : Disk) (k : String) :
    (Get be d k).2 = (be, d) := by
  unfold Get
  cases kdLookup be.Keydir k with
  | none => rfl
  | some r =>
    dsimp only
    cases fetchFromDisk d r with
    | error e => rfl
    | ok entry => by_cases ht : entry.IsTombstone = true <;> simp [ht]

/-- C9 amended: `close` is idempotent and never fails; `put` and `delete`
on a closed engine fail (with the wrapped invalid-handle error from `Stat`,
not a dedicated `Closed` error) and leave the state unchanged; but `get` is
entirely unaffected by `close` — it reads segment files with fresh handles
and still succeeds for keys present in the directory. -/
theorem C9_close_semantics :
    (∀ be : BitcaskEngine, (Close be).1 = .ok () ∧ (Close (Close be).2).1 = .ok () ∧
      (Close (Close be).2).2 = (Close be).2) ∧
    (∀ (be : BitcaskEngine) (d : Disk) (k v : String) (now : Int), be.ActiveFile = none →
      Put be d k v now = (.error (.putWrap .statFailed), be, d)) ∧
    (∀ (be : BitcaskEngine) (d : Disk) (k : String) (now : Int), be.ActiveFile = none →
      ∃ e, Delete be d k now = (.error e, be, d)) ∧
    (∀ (be : BitcaskEngine) (d : Disk) (k : String),
      (Get { be with ActiveFile := none } d k).1 = (Get be d k).1) := by
  refine ⟨?_, ?_, ?_, ?_⟩
  · intro be
    cases haf : be.ActiveFile <;> simp [Close, haf]
  · intro be d k v now h
    have hpfe : putFileEntry be d (NewFileEntry k v false now) now = .error .statFailed := by
      unfold putFileEntry
      rw [h]
    unfold Put
    dsimp only
    rw [hpfe]
  · intro be d k now h
    cases hlk : kdLookup be.Keydir k with
    | none =>
      refine ⟨.deleteMissing, ?_⟩
      unfold Delete
      rw [hlk]
    | some ex =>
      have hpfe : putFileEntry be d (NewFileEntry k "" true now) now = .error .statFailed := by
        unfold putFileEntry
        rw [h]
      refine ⟨.deleteWrap .statFailed, ?_⟩
      unfold Delete
      rw [hlk]
      dsimp only
      rw [hpfe]
  · intro be d k
    exact Get_fst_eq _ _ _ _ k rfl (fun r _ => rfl)

/-- C3: during index rebuild the byte-level scan of a well-formed frame
sequence applies, for every decoded record with key `K` and timestamp `T`,
exactly the spec's rule — no entry or existing timestamp `≤ T` means a
tombstone removes `K` and a non-tombstone installs the locator
`(file_path, record_offset, 8 + payload_length, T)`; a strictly newer
existing entry means the record is skipped. -/
theorem C3_replay_tiebreak (rs : List FileEntry) (kd : KeydirMap) (p : Int) (off : Nat)
    (hb : ∀ fe ∈ rs, payloadLen fe < 2 ^ 64) :
    scanFrom kd p (framesBytes rs) off = (specReplayRecs kd p off rs, none) :=
  scanFrom_frames rs kd p off hb

theorem buildIndexLoop_abs (files : List (Int × List FileEntry)) (kd : KeydirMap)
    (hb : ∀ f ∈ files, ∀ fe ∈ f.2, payloadLen fe < 2 ^ 64) :
    buildIndexLoop kd (diskOfAbs files) = (specReplayDisk kd files, none) := by
  induction files generalizing kd with
  | nil => rfl
  | cons f rest ih =>
    have h1 : ∀ fe ∈ f.2, payloadLen fe < 2 ^ 64 := hb f (by simp)
    have hrest : ∀ g ∈ rest, ∀ fe ∈ g.2, payloadLen fe < 2 ^ 64 :=
      fun g hg => hb g (by simp [hg])
    show buildIndexLoop kd ((f.1, framesBytes f.2) :: diskOfAbs rest) = _
    unfold buildIndexLoop
    rw [show processOldFile kd (f.1, framesBytes f.2).1 (f.1, framesBytes f.2).2 =
      (specReplayRecs kd f.1 0 f.2, none) from processOldFile_frames kd f.1 f.2 h1]
    dsimp only
    rw [ih _ hrest]
    rfl

/-- C4 amended: `build_index` replays the segment files into the in-memory
directory *as it is at call time* (the source never clears it first); when
that directory is empty — as in a freshly opened engine — the result is
exactly the spec's replay of all segment files into an empty directory, in
ascending file-name order. -/
theorem C4_buildIndex_from_empty (be : BitcaskEngine) (files : List (Int × List FileEntry))
    (hkd : be.Keydir = [])
    (hsorted : List.Pairwise (· < ·) (List.map Prod.fst files))
    (hb : ∀ f ∈ files, ∀ fe ∈ f.2, payloadLen fe < 2 ^ 64) :
    BuildIndex be (diskOfAbs files) =
      (.ok (), { be with Keydir := specReplayDisk [] files }) := by
  have hfs : filesOf (diskOfAbs files) = List.map Prod.fst files := by
    simp [filesOf, diskOfAbs]
  unfold BuildIndex
  rw [sortFilesByTs_eq_self (by rw [hfs]; exact hsorted), hkd,
    buildIndexLoop_abs files [] hb]

/-- C6 amended: (a) an append rolls over exactly when
`current_size + 8 + L > max_file_size`, and the record lands in the
`<now>.data` file on rollover and the current active file otherwise;
(b) consequently, two appends whose framed sizes each exceed half the cap
yield at least two `.data` files — provided the second append happens at a
second strictly after the engine was opened (at the same second the
rollover reuses the same file name and only one file exists; see the
counterexample). -/
theorem C6_rollover_condition :
    (∀ (be : BitcaskEngine) (d : Disk) (fe : FileEntry) (now p : Int),
      be.ActiveFile = some p →
      ∃ kde be1 d1, putFileEntry be d fe now = .ok (kde, be1, d1) ∧
        kde.FileID = (if ((diskSize d p : Nat) : Int) +
            (((8 + (serializeFileEntry fe).length : Nat) : Nat) : Int) > be.MaxFileSize
          then now else p) ∧
        kde.ValueSz = 8 + (serializeFileEntry fe).length) ∧
    (∀ (t0 t1 t2 m : Int) (k1 v1 k2 v2 : String),
      ((8 + payloadLen (NewFileEntry k1 v1 false t1) : Nat) : Int) ≤ m →
      m < 2 * ((8 + payloadLen (NewFileEntry k1 v1 false t1) : Nat) : Int) →
      m < 2 * ((8 + payloadLen (NewFileEntry k2 v2 false t2) : Nat) : Int) →
      t0 < t2 →
      2 ≤ (filesOf (Put (Put (initialState t0 m).1 (initialState t0 m).2 k1 v1 t1).2.1
        (Put (initialState t0 m).1 (initialState t0 m).2 k1 v1 t1).2.2 k2 v2 t2).2.2).length) := by
  constructor
  · intro be d fe now p haf
    by_cases hcond : (((diskSize d p : Nat) : Int) +
        (((8 + (serializeFileEntry fe).length : Nat) : Nat) : Int) > be.MaxFileSize)
    · exact ⟨_, _, _, putFileEntry_roll be d fe now p haf hcond, by rw [if_pos hcond], rfl⟩
    · exact ⟨_, _, _, putFileEntry_noRoll be d fe now p haf hcond, by rw [if_neg hcond], rfl⟩
  · intro t0 t1 t2 m k1 v1 k2 v2 h1 h2 h3 ht
    have he0 : initialState t0 m =
        ({ Keydir := [], ActiveFile := some t0, ActivePos := 0, MaxFileSize := m },
          [(t0, [])]) := rfl
    have hds0 : diskSize [((t0 : Int), ([] : List Nat))] t0 = 0 := by
      unfold diskSize
      rw [diskGet_cons_pos (t0, []) [] t0 (by simp)]
      rfl
    have hcond1 : ¬(((diskSize [((t0 : Int), ([] : List Nat))] t0 : Nat) : Int) +
        (((8 + (serializeFileEntry (NewFileEntry k1 v1 false t1)).length : Nat) : Nat) : Int) >
        ({ Keydir := [], ActiveFile := some t0, ActivePos := 0,
           MaxFileSize := m } : BitcaskEngine).MaxFileSize) := by
      rw [hds0]
      show ¬(((0 : Nat) : Int) + _ > m)
      have : ((8 + payloadLen (NewFileEntry k1 v1 false t1) : Nat) : Int) =
        (((8 + (serializeFileEntry (NewFileEntry k1 v1 false t1)).length : Nat) : Nat) : Int) := rfl
      rw [this] at h1
      omega
    have hput1 := Put_eq ({ Keydir := [], ActiveFile := some t0, ActivePos := 0, MaxFileSize := m } : BitcaskEngine) [((t0 : Int), ([] : List Nat))] k1 v1 t1
      (putFileEntry_noRoll _ _ (NewFileEntry k1 v1 false t1) t1 t0 rfl hcond1)
    have hw1 : diskWrite [((t0 : Int), ([] : List Nat))] t0
        (toBE8 (serializeFileEntry (NewFileEntry k1 v1 false t1)).length ++
          serializeFileEntry (NewFileEntry k1 v1 false t1)) =
        [(t0, frameBytes (NewFileEntry k1 v1 false t1))] := by
      have := diskWrite_last [] t0 [] (frameBytes (NewFileEntry k1 v1 false t1))
        (by intro x hx; simp at hx)
      simpa using this
    have hs1 : (Put ({ Keydir := [], ActiveFile := some t0, ActivePos := 0, MaxFileSize := m } : BitcaskEngine) [((t0 : Int), ([] : List Nat))] k1 v1 t1).2 =
        (({ Keydir := kdInsert [] k1 { FileID := t0, ValueSz := 8 + (serializeFileEntry (NewFileEntry k1 v1 false t1)).length, ValuePos := 0, Tstamp := (NewFileEntry k1 v1 false t1).Tstamp }, ActiveFile := some t0, ActivePos := diskSize [((t0 : Int), ([] : List Nat))] t0 + 8 + (serializeFileEntry (NewFileEntry k1 v1 false t1)).length, MaxFileSize := m } : BitcaskEngine),
          [((t0 : Int), frameBytes (NewFileEntry k1 v1 false t1))]) := by
      rw [hput1]
      dsimp only
      rw [hw1]
    rw [he0]
    rw [show (Put (({ Keydir := [], ActiveFile := some t0, ActivePos := 0, MaxFileSize := m } : BitcaskEngine), [((t0 : Int), ([] : List Nat))]).1 (({ Keydir := [], ActiveFile := some t0, ActivePos := 0, MaxFileSize := m } : BitcaskEngine), [((t0 : Int), ([] : List Nat))]).2 k1 v1 t1).2.1 = ({ Keydir := kdInsert [] k1 { FileID := t0, ValueSz := 8 + (serializeFileEntry (NewFileEntry k1 v1 false t1)).length, ValuePos := 0, Tstamp := (NewFileEntry k1 v1 false t1).Tstamp }, ActiveFile := some t0, ActivePos := diskSize [((t0 : Int), ([] : List Nat))] t0 + 8 + (serializeFileEntry (NewFileEntry k1 v1 false t1)).length, MaxFileSize := m } : BitcaskEngine) from by rw [hs1]]
    rw [show (Put (({ Keydir := [], ActiveFile := some t0, ActivePos := 0, MaxFileSize := m } : BitcaskEngine), [((t0 : Int), ([] : List Nat))]).1 (({ Keydir := [], ActiveFile := some t0, ActivePos := 0, MaxFileSize := m } : BitcaskEngine), [((t0 : Int), ([] : List Nat))]).2 k1 v1 t1).2.2 = [((t0 : Int), frameBytes (NewFileEntry k1 v1 false t1))] from by rw [hs1]]
    have hds1 : diskSize [((t0 : Int), frameBytes (NewFileEntry k1 v1 false t1))] t0 =
        8 + payloadLen (NewFileEntry k1 v1 false t1) := by
      unfold diskSize
      rw [diskGet_cons_pos (t0, frameBytes (NewFileEntry k1 v1 false t1)) [] t0 (by simp)]
      show (frameBytes (NewFileEntry k1 v1 false t1)).length = _
      exact frameBytes_length _
    have hcond2 : (((diskSize [((t0 : Int), frameBytes (NewFileEntry k1 v1 false t1))] t0 : Nat) : Int) +
        (((8 + (serializeFileEntry (NewFileEntry k2 v2 false t2)).length : Nat) : Nat) : Int) > m) := by
      rw [hds1]
      have ha : ((8 + payloadLen (NewFileEntry k1 v1 false t1) : Nat) : Int) +
          ((8 + payloadLen (NewFileEntry k2 v2 false t2) : Nat) : Int) > m := by omega
      exact ha
    have hput2 := Put_eq ({ Keydir := kdInsert [] k1 { FileID := t0, ValueSz := 8 + (serializeFileEntry (NewFileEntry k1 v1 false t1)).length, ValuePos := 0, Tstamp := (NewFileEntry k1 v1 false t1).Tstamp }, ActiveFile := some t0, ActivePos := diskSize [((t0 : Int), ([] : List Nat))] t0 + 8 + (serializeFileEntry (NewFileEntry k1 v1 false t1)).length, MaxFileSize := m } : BitcaskEngine) [((t0 : Int), frameBytes (NewFileEntry k1 v1 false t1))] k2 v2 t2
      (putFileEntry_roll _ _ (NewFileEntry k2 v2 false t2) t2 t0 rfl hcond2)
    rw [hput2]
    dsimp only
    have hopen2 : diskOpenCreate [((t0 : Int), frameBytes (NewFileEntry k1 v1 false t1))] t2 =
        [((t0 : Int), frameBytes (NewFileEntry k1 v1 false t1))] ++ [(t2, [])] := by
      refine diskOpenCreate_of_not_mem ?_
      intro hmem
      simp [filesOf] at hmem
      omega
    rw [hopen2]
    rw [show (toBE8 (serializeFileEntry (NewFileEntry k2 v2 false t2)).length ++ serializeFileEntry (NewFileEntry k2 v2 false t2)) = frameBytes (NewFileEntry k2 v2 false t2) from rfl]
    have hw2 := diskWrite_last [((t0 : Int), frameBytes (NewFileEntry k1 v1 false t1))] t2 []
      (frameBytes (NewFileEntry k2 v2 false t2))
      (by intro x hx; rw [List.mem_singleton] at hx; subst hx; show t0 ≠ t2; omega)
    rw [List.nil_append] at hw2
    rw [hw2]
    simp [filesOf]

/-- C1, counterexample: on the open engine obtained by reopening a data
directory in the same wall-clock second in which its segment was created
(whose append position 0 disagrees with the file length), `put("c","d")`
succeeds but the immediately following `get("c")` — with no intervening
operation on "c" — returns the stale value `"b"` of the other key's record
instead of `"d"`. -/
theorem C1_counterexample :
    (Put exReopen.1 exReopen.2 "c" "d" 100).1 = .ok () ∧
    (Get exReopenPut.1 exReopenPut.2 "c").1 ≠ .ok "d" ∧
    (Get exReopenPut.1 exReopenPut.2 "c").1 = .ok "b" := by
  refine ⟨by decide, by decide, by decide⟩

/-- C1, witness for the amended round-trip theorem. -/
theorem C1_witness :
    (Put (NewBistcaskEngine [] 100).1 (NewBistcaskEngine [] 100).2 "foo" "bar" 100).1 = .ok () ∧
    (Get (Put (NewBistcaskEngine [] 100).1 (NewBistcaskEngine [] 100).2 "foo" "bar" 100).2.1
      (Put (NewBistcaskEngine [] 100).1 (NewBistcaskEngine [] 100).2 "foo" "bar" 100).2.2 "foo").1 =
      .ok "bar" :=
  put_then_get (NewBistcaskEngine [] 100).1 (NewBistcaskEngine [] 100).2 "foo" "bar" 100 100 []
    (by decide) (by decide) (by decide) (fun _ => Or.inr (by decide))

/-- C2, counterexample: with the size cap at 25 bytes, running
`put("a","b"); put("c","d")` within one wall-clock second rolls the active
file over onto its own name; before `close` the engine returns the stale
`"b"` for `get("c")`, while the engine reopened on the directory after
`build_index` returns `"d"` — the two directories are not equivalent. -/
theorem C2_counterexample :
    (Get cx2c.1 cx2c.2 "c").1 = .ok "b" ∧
    (BuildIndex cx2Reopen.1 cx2Reopen.2).1 = .ok () ∧
    (Get cx2Rebuilt cx2Reopen.2 "c").1 = .ok "d" ∧
    (Get cx2c.1 cx2c.2 "c").1 ≠ (Get cx2Rebuilt cx2Reopen.2 "c").1 := by
  refine ⟨by decide, by decide, by decide, by decide⟩

/-- C2, witness for the amended persistence theorem. -/
theorem C2_witness :
    (BuildIndex (reopenedState 100 1048576 [(SOp.putOp "a" "b", 100), (SOp.delOp "a", 101), (SOp.putOp "x" "y", 101)] 102).1
      (reopenedState 100 1048576 [(SOp.putOp "a" "b", 100), (SOp.delOp "a", 101), (SOp.putOp "x" "y", 101)] 102).2).1 = .ok () ∧
    (Get (rebuiltEngine 100 1048576 [(SOp.putOp "a" "b", 100), (SOp.delOp "a", 101), (SOp.putOp "x" "y", 101)] 102)
      (reopenedState 100 1048576 [(SOp.putOp "a" "b", 100), (SOp.delOp "a", 101), (SOp.putOp "x" "y", 101)] 102).2 "x").1 =
    (Get (finalState 100 1048576 [(SOp.putOp "a" "b", 100), (SOp.delOp "a", 101), (SOp.putOp "x" "y", 101)]).1
      (finalState 100 1048576 [(SOp.putOp "a" "b", 100), (SOp.delOp "a", 101), (SOp.putOp "x" "y", 101)]).2 "x").1 := by
  have h := persistence_amended 100 1048576 102
    [(SOp.putOp "a" "b", 100), (SOp.delOp "a", 101), (SOp.putOp "x" "y", 101)]
    (by simp [List.chain'_cons]) (by decide) (by decide) (by decide)
  exact ⟨h.2.1, h.2.2 "x"⟩

/-- C3, witness. -/
theorem C3_witness :
    scanFrom [] 7 (framesBytes [NewFileEntry "a" "b" false 100, NewFileEntry "a" "" true 100]) 0 =
      (specReplayRecs [] 7 0 [NewFileEntry "a" "b" false 100, NewFileEntry "a" "" true 100], none) :=
  C3_replay_tiebreak [NewFileEntry "a" "b" false 100, NewFileEntry "a" "" true 100] [] 7 0
    (by decide)

/-- C4, counterexample: `build_index` does not reconstruct from scratch —
starting it with a stale in-memory entry for `"k"` (timestamp 100, newer
than the on-disk record's 50) leaves that stale entry in place, whereas the
same call on an empty directory indexes the on-disk record; the result
depends on the directory held before the call. -/
theorem C4_counterexample :
    (BuildIndex { Keydir := [("k", { FileID := 50, ValueSz := 30, ValuePos := 0, Tstamp := 100 })], ActiveFile := some 50, ActivePos := 0, MaxFileSize := 1048576 } [(50, frameBytes (NewFileEntry "k" "v" false 50))]).1 = .ok () ∧
    (BuildIndex { Keydir := [], ActiveFile := some 50, ActivePos := 0, MaxFileSize := 1048576 } [(50, frameBytes (NewFileEntry "k" "v" false 50))]).1 = .ok () ∧
    (BuildIndex { Keydir := [("k", { FileID := 50, ValueSz := 30, ValuePos := 0, Tstamp := 100 })], ActiveFile := some 50, ActivePos := 0, MaxFileSize := 1048576 } [(50, frameBytes (NewFileEntry "k" "v" false 50))]).2.Keydir ≠
    (BuildIndex { Keydir := [], ActiveFile := some 50, ActivePos := 0, MaxFileSize := 1048576 } [(50, frameBytes (NewFileEntry "k" "v" false 50))]).2.Keydir := by
  refine ⟨by decide, by decide, by decide⟩

/-- C4, witness for the amended from-empty theorem. -/
theorem C4_witness :
    BuildIndex { Keydir := [], ActiveFile := some 100, ActivePos := 0, MaxFileSize := 1048576 }
      (diskOfAbs [((100 : Int), [NewFileEntry "a" "b" false 100])]) =
    (.ok (), { ({ Keydir := [], ActiveFile := some 100, ActivePos := 0, MaxFileSize := 1048576 } : BitcaskEngine) with Keydir := specReplayDisk [] [((100 : Int), [NewFileEntry "a" "b" false 100])] }) :=
  C4_buildIndex_from_empty
    { Keydir := [], ActiveFile := some 100, ActivePos := 0, MaxFileSize := 1048576 }
    [((100 : Int), [NewFileEntry "a" "b" false 100])] rfl (by decide) (by decide)

/-- C5: a rollover at the same wall-clock second as the active file's
creation reopens the *same* `100.data` path — the "new" active file is not
distinct, the disk gains no file, and the subsequent append writes into
the previously rolled-over segment, which therefore is not immutable:
after `put("a","b"); put("c","d")` (cap 25, same second) the single file
holds both frames. -/
theorem C5_same_second_rollover :
    (rollOverActiveFile cx2b.1 cx2b.2 100).1.ActiveFile = cx2b.1.ActiveFile ∧
    (rollOverActiveFile cx2b.1 cx2b.2 100).2 = cx2b.2 ∧
    (Put cx2b.1 cx2b.2 "c" "d" 100).1 = .ok () ∧
    (filesOf cx2c.2).length = 1 ∧
    diskGet cx2c.2 100 =
      some (frameBytes (NewFileEntry "a" "b" false 100) ++ frameBytes (NewFileEntry "c" "d" false 100)) := by
  refine ⟨by decide, by decide, by decide, by decide, by decide⟩

/-- C6, counterexample: with the cap at 25 and both records' framed sizes
above half the cap, two appends within the same second leave only one
`.data` file — the rollover's target name collides with the active file. -/
theorem C6_counterexample :
    (Put cx2a.1 cx2a.2 "a" "b" 100).1 = .ok () ∧
    (Put cx2b.1 cx2b.2 "c" "d" 100).1 = .ok () ∧
    ((25 : Int) < 2 * ((8 + payloadLen (NewFileEntry "a" "b" false 100) : Nat) : Int)) ∧
    ((25 : Int) < 2 * ((8 + payloadLen (NewFileEntry "c" "d" false 100) : Nat) : Int)) ∧
    (filesOf cx2c.2).length = 1 := by
  refine ⟨by decide, by decide, by decide, by decide, by decide⟩

/-- C6, witness for the amended rollover theorem. -/
theorem C6_witness :
    (∃ kde be1 d1, putFileEntry cx2b.1 cx2b.2 (NewFileEntry "c" "d" false 101) 101 = .ok (kde, be1, d1) ∧
      kde.FileID = (if ((diskSize cx2b.2 100 : Nat) : Int) +
          (((8 + (serializeFileEntry (NewFileEntry "c" "d" false 101)).length : Nat) : Nat) : Int) > cx2b.1.MaxFileSize
        then (101 : Int) else 100) ∧
      kde.ValueSz = 8 + (serializeFileEntry (NewFileEntry "c" "d" false 101)).length) ∧
    2 ≤ (filesOf (Put (Put (initialState 100 30).1 (initialState 100 30).2 "a" "b" 100).2.1
      (Put (initialState 100 30).1 (initialState 100 30).2 "a" "b" 100).2.2 "c" "d" 101).2.2).length :=
  ⟨C6_rollover_condition.1 cx2b.1 cx2b.2 (NewFileEntry "c" "d" false 101) 101 100 (by decide),
   C6_rollover_condition.2 100 100 101 30 "a" "b" "c" "d" (by decide) (by decide) (by decide) (by decide)⟩

/-- C7, witness. -/
theorem C7_witness :
    (Delete (Put (NewBistcaskEngine [] 100).1 (NewBistcaskEngine [] 100).2 "k" "v" 100).2.1
      (Put (NewBistcaskEngine [] 100).1 (NewBistcaskEngine [] 100).2 "k" "v" 100).2.2 "k" 101).1 = .ok () ∧
    (Get (Delete (Put (NewBistcaskEngine [] 100).1 (NewBistcaskEngine [] 100).2 "k" "v" 100).2.1
        (Put (NewBistcaskEngine [] 100).1 (NewBistcaskEngine [] 100).2 "k" "v" 100).2.2 "k" 101).2.1
      (Delete (Put (NewBistcaskEngine [] 100).1 (NewBistcaskEngine [] 100).2 "k" "v" 100).2.1
        (Put (NewBistcaskEngine [] 100).1 (NewBistcaskEngine [] 100).2 "k" "v" 100).2.2 "k" 101).2.2 "k").1 =
      .error .keyNotFound :=
  C7_put_delete_get (NewBistcaskEngine [] 100).1 (NewBistcaskEngine [] 100).2 "k" "v" 100 101 100
    (by decide)

/-- C8, witness. -/
theorem C8_witness :
    Delete (NewBistcaskEngine [] 100).1 (NewBistcaskEngine [] 100).2 "nope" 100 =
      (.error .deleteMissing, (NewBistcaskEngine [] 100).1, (NewBistcaskEngine [] 100).2) :=
  C8_delete_absent (NewBistcaskEngine [] 100).1 (NewBistcaskEngine [] 100).2 "nope" 100 (by decide)

/-- C9, counterexample: after `put("a","b"); close`, a second `close`
succeeds (idempotent, as claimed) but `get("a")` on the closed engine still
*succeeds* with `"b"` — the engine is not unusable after close, refuting
"every subsequent put, get, or delete fails". -/
theorem C9_counterexample :
    (Close exPut.1).1 = .ok () ∧
    (Close (Close exPut.1).2).1 = .ok () ∧
    (Get (Close exPut.1).2 exPut.2 "a").1 = .ok "b" := by
  refine ⟨by decide, by decide, by decide⟩

/-- C9, witness for the amended close-semantics theorem. -/
theorem C9_witness :
    Put (Close exPut.1).2 exPut.2 "x" "y" 101 =
      (.error (.putWrap .statFailed), (Close exPut.1).2, exPut.2) ∧
    (∃ e, Delete (Close exPut.1).2 exPut.2 "a" 101 = (.error e, (Close exPut.1).2, exPut.2)) ∧
    (Get { (Close exPut.1).2 with ActiveFile := none } exPut.2 "a").1 =
      (Get (Close exPut.1).2 exPut.2 "a").1 := by
  have h := C9_close_semantics
  exact ⟨h.2.1 (Close exPut.1).2 exPut.2 "x" "y" 101 (by decide),
    h.2.2.1 (Close exPut.1).2 exPut.2 "a" 101 (by decide),
    h.2.2.2 (Close exPut.1).2 exPut.2 "a"⟩

end Bitcask

